import Mathlib

/-!
Verification development for the i2cm library: an I2C master transaction
layer (8-bit and 16-bit register addresses) and a 24Cxx EEPROM driver with
page-aware writes, banked device addressing and a file-like interface.

The Go source is shallowly embedded: machine integers become `Nat` with
explicit truncation (`% 256`, `% 65536`) where the source converts between
integer widths, Go `error` values become `Option Err`, and the bus / the
transactor are abstract records of state-passing functions.  Each bus
primitive call and each transactor call is additionally recorded in an
explicit event trace so that wire-level properties can be stated.
-/

set_option maxRecDepth 10000

namespace I2cm

/-- The error values of the library.  `nackReceived` and `noSuchDevice`
are the two exported sentinel errors; `eof` models `io.EOF`; the `conf*`
and `seek*` constructors model the distinct `errors.New` values produced
by `NewEEPROM24` and `ee24.Seek`; `busFault` stands for any other error a
bus implementation may return; `eePanicBeyondEnd` models the
`panic("wrote beyond end of EEPROM...")` in `ee24.Write`; `outOfRange`
models a Go index-out-of-range runtime fault in the PVT24 test device;
`fuelOut` is a model artifact of the fuel-bounded `ee24.Write` loop,
unreachable for any page size ≥ 1. -/
inductive Err where
  | nackReceived
  | noSuchDevice
  | onlySevenBit
  | eof
  | seekInvalidWhence
  | seekNegative
  | seekBeyondEnd
  | confPageGtSize
  | confSizeTooBig
  | confSizeNotPow2
  | confPageNotPow2
  | confAddrLen
  | busFault (n : Nat)
  | eePanicBeyondEnd
  | outOfRange
  | fuelOut
deriving DecidableEq, Repr

/-- `Addr`: I2C device addresses (Go interface `Addr` with the two
implementations `Addr7 uint8` and `Addr10 uint16`). -/
inductive Addr where
  | addr7 (a : Nat)
  | addr10 (a : Nat)
deriving DecidableEq, Repr

/-- `Addr7.GetBaseAddr` masks with 0x7f, `Addr10.GetBaseAddr` with 0x3ff. -/
def Addr.GetBaseAddr : Addr → Nat
  | .addr7 a => a &&& 0x7f
  | .addr10 a => a &&& 0x3ff

/-- `GetAddrLen`: 7 for `Addr7`, 10 for `Addr10`. -/
def Addr.GetAddrLen : Addr → Nat
  | .addr7 _ => 7
  | .addr10 _ => 10

/-- One observable call to a bus primitive (the `I2CMaster` interface).
Every call made is recorded, whether it succeeded or not. -/
inductive BusEvent where
  | evStart
  | evStop
  | evWrite (b : Nat)
  | evRead (ack : Bool) (b : Nat)
deriving DecidableEq, Repr

/-- The low-level bus (`I2CMaster` interface): four blocking primitives
over an abstract bus state `σ`.  `readByte` also yields the byte read. -/
structure Master (σ : Type) where
  start : σ → σ × Option Err
  stop : σ → σ × Option Err
  writeByte : Nat → σ → σ × Option Err
  readByte : Bool → σ → σ × Nat × Option Err

/-- Result of the write-bytes loop of `I2CMasterTransact8x8`. -/
structure WLOut (σ : Type) where
  s : σ
  trace : List BusEvent
  nw : Nat
  err : Option Err
deriving DecidableEq

/-- Result of the read-bytes loop of `I2CMasterTransact8x8`. -/
structure RLOut (σ : Type) where
  s : σ
  trace : List BusEvent
  rb : List Nat
  err : Option Err
deriving DecidableEq

/-- The `for _, b := range w` loop of `I2CMasterTransact8x8`: write each
byte, incrementing `nw` after each successful one, aborting on the first
error. -/
def busWriteList (M : Master σ) : σ → List Nat → WLOut σ
  | s, [] => ⟨s, [], 0, none⟩
  | s, b :: bs =>
    match M.writeByte b s with
    | (s1, some e) => ⟨s1, [.evWrite b], 0, some e⟩
    | (s1, none) =>
      let r := busWriteList M s1 bs
      ⟨r.s, .evWrite b :: r.trace, r.nw + 1, r.err⟩

/-- The read loop of `I2CMasterTransact8x8`: read `n` bytes, sending an
ACK for every byte except the last, collecting the bytes read so far and
aborting on the first error.  The argument counts the bytes still to
read after the current one, so `ack = false` exactly on the final byte. -/
def busReadList (M : Master σ) : σ → Nat → RLOut σ
  | s, 0 => ⟨s, [], [], none⟩
  | s, n + 1 =>
    let ack := decide (n ≠ 0)
    match M.readByte ack s with
    | (s1, b, some e) => ⟨s1, [.evRead ack b], [], some e⟩
    | (s1, b, none) =>
      let r := busReadList M s1 n
      ⟨r.s, .evRead ack b :: r.trace, b :: r.rb, r.err⟩

/-- `if err == NACKReceived { return NoSuchDevice }`: the translation of a
NACK on a device-address byte into the distinguished error. -/
def mapNoDev (e : Err) : Err :=
  if e = .nackReceived then .noSuchDevice else e

/-- Result of the inner (between start and stop) part of a transaction. -/
structure InnerOut (σ : Type) where
  s : σ
  trace : List BusEvent
  nw : Nat
  rb : List Nat
  err : Option Err
deriving DecidableEq

/-- The inner anonymous function of `I2CMasterTransact8x8`: everything
between, but not including, the start and the stop condition.  Writes the
device address (translating a NACK into `noSuchDevice`), the register
address and the payload, then, if `0 < rlen`, issues a repeated start,
writes the read address (again translating a NACK) and reads `rlen`
bytes. -/
def innerTransact (M : Master σ) (s : σ) (addrb regaddr : Nat)
    (w : List Nat) (rlen : Nat) : InnerOut σ :=
  match M.writeByte addrb s with
  | (s1, some e) => ⟨s1, [.evWrite addrb], 0, [], some (mapNoDev e)⟩
  | (s1, none) =>
    match M.writeByte regaddr s1 with
    | (s2, some e) => ⟨s2, [.evWrite addrb, .evWrite regaddr], 0, [], some e⟩
    | (s2, none) =>
      let wl := busWriteList M s2 w
      match wl.err with
      | some e =>
        ⟨wl.s, .evWrite addrb :: .evWrite regaddr :: wl.trace, wl.nw, [], some e⟩
      | none =>
        if 0 < rlen then
          match M.start wl.s with
          | (s4, some e) =>
            ⟨s4, .evWrite addrb :: .evWrite regaddr :: (wl.trace ++ [.evStart]),
              wl.nw, [], some e⟩
          | (s4, none) =>
            match M.writeByte (addrb ||| 1) s4 with
            | (s5, some e) =>
              ⟨s5, .evWrite addrb :: .evWrite regaddr ::
                (wl.trace ++ [.evStart, .evWrite (addrb ||| 1)]), wl.nw, [],
                some (mapNoDev e)⟩
            | (s5, none) =>
              let rl := busReadList M s5 rlen
              ⟨rl.s, .evWrite addrb :: .evWrite regaddr ::
                (wl.trace ++ .evStart :: .evWrite (addrb ||| 1) :: rl.trace),
                wl.nw, rl.rb, rl.err⟩
        else
          ⟨wl.s, .evWrite addrb :: .evWrite regaddr :: wl.trace, wl.nw, [], none⟩

/-- Full result of a transaction at the `I2CMaster` level. -/
structure T8Out (σ : Type) where
  s : σ
  trace : List BusEvent
  nw : Nat
  nr : Nat
  rb : List Nat
  err : Option Err
deriving DecidableEq

/-- `I2CMasterTransact8x8`: a write-then-read transaction with an 8 bit
register address over the raw bus.  Rejects non-7-bit addresses without
touching the bus; issues start; runs the inner sequence; always issues
stop afterwards, reporting the first error encountered (the stop's own
error is dropped if an earlier step already failed). -/
def I2CMasterTransact8x8 (M : Master σ) (s : σ) (addr : Addr)
    (regaddr : Nat) (w : List Nat) (rlen : Nat) : T8Out σ :=
  if addr.GetAddrLen ≠ 7 then ⟨s, [], 0, 0, [], some .onlySevenBit⟩
  else
    match M.start s with
    | (s1, some e) => ⟨s1, [.evStart], 0, 0, [], some e⟩
    | (s1, none) =>
      let addrb := (addr.GetBaseAddr <<< 1) % 256
      let inner := innerTransact M s1 addrb regaddr w rlen
      let stopr := M.stop inner.s
      ⟨stopr.1, .evStart :: inner.trace ++ [.evStop], inner.nw, inner.rb.length,
        inner.rb,
        match inner.err with
        | some e => some e
        | none => stopr.2⟩

/-- `transactor16x8.Transact16x8`: emulates a 16 bit register address
transaction through the 8 bit executor: the high address byte goes in the
register-address slot, the low address byte is prepended to the write
buffer, and one is subtracted from the reported write count (when
positive) to hide that synthetic byte. -/
def Transact16x8 (M : Master σ) (s : σ) (addr : Addr) (regaddr : Nat)
    (w : List Nat) (rlen : Nat) : T8Out σ :=
  let addrhi := (regaddr >>> 8) % 256
  let wbuf := (regaddr % 256) :: w
  let d := I2CMasterTransact8x8 M s addr addrhi wbuf rlen
  { d with nw := if 0 < d.nw then d.nw - 1 else d.nw }

/-! ## The transactor abstraction

`ee24` holds a `Transactor` (Go: the aggregate built by `NewTransactor`)
and issues `Transact8x8` / `Transact16x8` calls through it.  We model it
as a record of two state-passing functions over a transactor state `σ`. -/

/-- Result of one transactor call: new state, bytes written, bytes read,
the bytes placed into the read buffer, and the error if any. -/
structure TxResult (σ : Type) where
  s : σ
  nw : Nat
  nr : Nat
  rb : List Nat
  err : Option Err
deriving DecidableEq

/-- A `Transactor`: both transaction capabilities over a shared state. -/
structure Transactor (σ : Type) where
  t8 : σ → Addr → Nat → List Nat → Nat → TxResult σ
  t16 : σ → Addr → Nat → List Nat → Nat → TxResult σ

/-! ## The 24Cxx EEPROM driver -/

/-- Go: `uint8(x)`. -/
def u8 (x : Nat) : Nat := x % 256

/-- Go: `uint16(x)`. -/
def u16 (x : Nat) : Nat := x % 65536

/-- `MAX_EEPROM_SIZE = 1 << (16 + 3)`. -/
def MAX_EEPROM_SIZE : Nat := 1 <<< (16 + 3)

/-- `EEPROM24Config`: size, page size (bytes) and the write settle delay
(nanoseconds; stored but never acted upon by the driver). -/
structure EEPROM24Config where
  Size : Nat
  PageSize : Nat
  WriteDelay : Nat
deriving DecidableEq, Repr

/-- `hasSmallAddresses`: configurations of at most `1 << 11` bytes use the
8-bit register-address convention, larger ones the 16-bit convention. -/
def EEPROM24Config.hasSmallAddresses (e : EEPROM24Config) : Bool :=
  if e.Size ≤ (1 <<< 11) then true else false

/-- The mutable driver state `ee24`: configuration, file pointer `p` and
the device's base address.  (The bus/transactor state is threaded
separately.) -/
structure Ee24 where
  conf : EEPROM24Config
  p : Nat
  devaddr : Addr
deriving DecidableEq, Repr

/-- Decidable equality for `Except`, so that construction results can be
checked on concrete configurations. -/
def exceptDecEq [DecidableEq ε] [DecidableEq α] : DecidableEq (Except ε α)
  | .error a, .error b =>
    match decEq a b with
    | .isTrue h => .isTrue (h ▸ rfl)
    | .isFalse h => .isFalse (fun hc => h (Except.error.inj hc))
  | .error _, .ok _ => .isFalse (fun hc => Except.noConfusion hc)
  | .ok _, .error _ => .isFalse (fun hc => Except.noConfusion hc)
  | .ok a, .ok b =>
    match decEq a b with
    | .isTrue h => .isTrue (h ▸ rfl)
    | .isFalse h => .isFalse (fun hc => h (Except.ok.inj hc))

instance [DecidableEq ε] [DecidableEq α] : DecidableEq (Except ε α) :=
  exceptDecEq

/-- The loop of `ispow2`: `for (i&0x01)==0 && i>0 { i >>= 1 }`, with a
fuel argument so that it is structurally recursive (the loop halves its
argument, so fuel `i` always suffices when started at `i`). -/
def ispow2Loop : Nat → Nat → Nat
  | 0, i => i
  | fuel + 1, i =>
    if (i &&& 0x01) = 0 ∧ 0 < i then ispow2Loop fuel (i >>> 1) else i

/-- `ispow2`: run the halving loop, then `return i == 1`. -/
def ispow2 (i : Nat) : Bool :=
  decide (ispow2Loop i i = 1)

/-- `NewEEPROM24`: validates the configuration (page size ≤ size, size at
most `MAX_EEPROM_SIZE`, both powers of two, 7-bit device address) and
returns the driver with file pointer 0. -/
def NewEEPROM24 (devaddr : Addr) (conf : EEPROM24Config) : Except Err Ee24 :=
  if conf.PageSize > conf.Size then .error .confPageGtSize
  else if conf.Size > MAX_EEPROM_SIZE then .error .confSizeTooBig
  else if !ispow2 conf.Size then .error .confSizeNotPow2
  else if !ispow2 conf.PageSize then .error .confPageNotPow2
  else if devaddr.GetAddrLen ≠ 7 then .error .confAddrLen
  else .ok { conf := conf, p := 0, devaddr := devaddr }

/-- One observable transactor call issued by the driver: which capability
was used, the file pointer at the moment the transaction was issued
(`atP`), and the call's arguments. -/
inductive TxEvent where
  | tx8 (atP : Nat) (devaddr : Addr) (regaddr : Nat) (w : List Nat) (rlen : Nat)
  | tx16 (atP : Nat) (devaddr : Addr) (regaddr : Nat) (w : List Nat) (rlen : Nat)
deriving DecidableEq, Repr

/-- The write buffer carried by a transactor call event. -/
def TxEvent.wb : TxEvent → List Nat
  | .tx8 _ _ _ w _ => w
  | .tx16 _ _ _ w _ => w

/-- The file pointer at the moment the event's transaction was issued. -/
def TxEvent.atP : TxEvent → Nat
  | .tx8 p _ _ _ _ => p
  | .tx16 p _ _ _ _ => p

/-- Result of a driver `Read`/`Write` call: transactor state, new driver
state, the Go `int` return value `n`, the bytes placed into the caller's
buffer (reads only), the transactions issued, and the error if any. -/
structure EEOut (σ : Type) where
  s : σ
  ee : Ee24
  n : Nat
  rb : List Nat
  trace : List TxEvent
  err : Option Err
deriving DecidableEq

/-- `ee24.Read`: clamp the end position to the array size; report `io.EOF`
on an empty transfer; otherwise issue exactly one transaction (8-bit or
16-bit register address depending on `hasSmallAddresses`, device address
banked by the high offset bits) and advance the file pointer by the
number of bytes actually read. -/
def ee24Read (T : Transactor σ) (s : σ) (e : Ee24) (blen : Nat) : EEOut σ :=
  let startpos := e.p
  let endpos0 := startpos + blen
  let endpos := if endpos0 > e.conf.Size then e.conf.Size else endpos0
  if endpos - startpos = 0 then ⟨s, e, 0, [], [], some .eof⟩
  else
    let rlen := endpos - startpos
    if e.conf.hasSmallAddresses then
      let devaddrinc := startpos >>> 8
      let devaddr := Addr.addr7 (u8 (u16 (e.devaddr.GetBaseAddr + u16 devaddrinc)))
      let regaddr := u8 (startpos &&& 0xff)
      let r := T.t8 s devaddr regaddr [] rlen
      ⟨r.s, { e with p := e.p + r.nr }, r.nr, r.rb,
        [.tx8 startpos devaddr regaddr [] rlen], r.err⟩
    else
      let devaddrinc := startpos >>> 16
      let devaddr := Addr.addr7 (u8 (u16 (e.devaddr.GetBaseAddr + u16 devaddrinc)))
      let regaddr := u16 startpos
      let r := T.t16 s devaddr regaddr [] rlen
      ⟨r.s, { e with p := e.p + r.nr }, r.nr, r.rb,
        [.tx16 startpos devaddr regaddr [] rlen], r.err⟩

/-- The guarded update shared by the three `whence` arms of `ee24.Seek`. -/
def seekTo (e : Ee24) (P nP : Int) : Ee24 × Int × Option Err :=
  if nP < 0 then (e, P, some .seekNegative)
  else if nP > (e.conf.Size : Int) then (e, P, some .seekBeyondEnd)
  else ({ e with p := nP.toNat }, P, none)

/-- `ee24.Seek`: absolute / relative / end-relative positioning with an
invalid-whence error; rejects negative and past-end targets; returns the
prior pointer. -/
def ee24Seek (e : Ee24) (offset : Int) (whence : Nat) : Ee24 × Int × Option Err :=
  let P : Int := e.p
  match whence with
  | 0 => seekTo e P offset
  | 1 => seekTo e P (P + offset)
  | 2 => seekTo e P ((e.conf.Size : Int) + offset)
  | _ => (e, P, some .seekInvalidWhence)

/-- The loop of `ee24.Write`: while bytes remain and the pointer is below
the array size, compute the offset in the current page
(`aip = p & (PageSize-1)`), the number of bytes that fit in the rest of
that page, issue one page-bounded transaction and, on success, advance
the pointer and drop the consumed bytes.  After the loop, reaching the
end with input left over reports `io.EOF`; a pointer beyond the size is
the fatal `panic` branch.  `fuel` bounds the recursion; `fuel = len b + 1`
is enough for any page size ≥ 1 (each iteration consumes at least one
byte), so `fuelOut` is unreachable there. -/
def ee24WriteLoop (T : Transactor σ) (origsize : Nat) :
    Nat → σ → Ee24 → List Nat → EEOut σ
  | 0, s, e, _ => ⟨s, e, 0, [], [], some .fuelOut⟩
  | fuel + 1, s, e, b =>
    if 0 < b.length ∧ e.p < e.conf.Size then
      let aip := e.p &&& (e.conf.PageSize - 1)
      let nip0 := b.length
      let nip := if nip0 > e.conf.PageSize - aip then e.conf.PageSize - aip else nip0
      let call :=
        if e.conf.hasSmallAddresses then
          let regaddr := u8 (e.p &&& 0xff)
          let devaddrinc := e.p >>> 8
          let devaddr := Addr.addr7 (u8 (u16 (e.devaddr.GetBaseAddr + u16 devaddrinc)))
          (T.t8 s devaddr regaddr (b.take nip) 0,
            TxEvent.tx8 e.p devaddr regaddr (b.take nip) 0)
        else
          let regaddr := u16 e.p
          let devaddrinc := e.p >>> 16
          let devaddr := Addr.addr7 (u8 (u16 (e.devaddr.GetBaseAddr + u16 devaddrinc)))
          (T.t16 s devaddr regaddr (b.take nip) 0,
            TxEvent.tx16 e.p devaddr regaddr (b.take nip) 0)
      match call.1.err with
      | some er =>
        ⟨call.1.s, e, origsize - b.length + call.1.nw, [], [call.2], some er⟩
      | none =>
        let rest := ee24WriteLoop T origsize fuel call.1.s
          { e with p := e.p + nip } (b.drop nip)
        { rest with trace := call.2 :: rest.trace }
    else
      if e.p = e.conf.Size ∧ 0 < b.length then
        ⟨s, e, origsize - b.length, [], [], some .eof⟩
      else if e.p > e.conf.Size then ⟨s, e, 0, [], [], some .eePanicBeyondEnd⟩
      else ⟨s, e, origsize, [], [], none⟩

/-- `ee24.Write`: the loop above, started with enough fuel. -/
def ee24Write (T : Transactor σ) (s : σ) (e : Ee24) (b : List Nat) : EEOut σ :=
  ee24WriteLoop T b.length (b.length + 1) s e b

/-! ## The PVT24 page-verifying EEPROM device model

The repository's own simulated device (test type `PVT24`): a flat memory,
writes wrapping inside the page the transaction started in
(`waddr = (memaddr & (pagesize-1)) | startpagebase`), reads sequential.
A Go index-out-of-range panic on the memory array is modeled as the
`outOfRange` error. -/

/-- Go's `^x` on `uint` (64-bit bitwise complement). -/
def compl64 (x : Nat) : Nat := (2 ^ 64 - 1) ^^^ x

/-- The write half of `PVT24.rwhandler`: store each byte at
`(memaddr & (pagesize-1)) | startpagebase`, advancing `memaddr`.
Returns the new memory and the final `memaddr`; `none` models the Go
panic on an out-of-range store. -/
def pvtWr (pagesize startpagebase : Nat) :
    List Nat → Nat → List Nat → Option (List Nat × Nat)
  | [], memaddr, mem => some (mem, memaddr)
  | b :: bs, memaddr, mem =>
    let waddr := (memaddr &&& (pagesize - 1)) ||| startpagebase
    if waddr < mem.length then
      pvtWr pagesize startpagebase bs (memaddr + 1) (mem.set waddr b)
    else none

/-- The read half of `PVT24.rwhandler`: `rb[i] = mem[memaddr]; memaddr++`;
`none` models the Go panic on an out-of-range load. -/
def pvtRd (mem : List Nat) : Nat → Nat → Option (List Nat)
  | _, 0 => some []
  | memaddr, n + 1 =>
    if memaddr < mem.length then
      (pvtRd mem (memaddr + 1) n).map (mem.getD memaddr 0 :: ·)
    else none

/-- `PVT24.rwhandler`: writes, then reads continuing from the final
memory address. -/
def pvtRW (pagesize : Nat) (mem : List Nat) (memaddr startpagebase : Nat)
    (wb : List Nat) (rlen : Nat) : Option (List Nat × List Nat) :=
  match pvtWr pagesize startpagebase wb memaddr mem with
  | none => none
  | some (mem1, memaddr1) =>
    match pvtRd mem1 memaddr1 rlen with
    | none => none
    | some rbs => some (mem1, rbs)

/-- `PVT24.Transact8x8`: memory address `((base & 0x07) << 8) + regaddr`,
page base `memaddr & ^(pagesize-1)`; reports all requested bytes written
and read on success. -/
def pvtT8 (pagesize : Nat) (mem : List Nat) (addr : Addr) (regaddr : Nat)
    (wb : List Nat) (rlen : Nat) : TxResult (List Nat) :=
  let memaddr := ((addr.GetBaseAddr &&& 0x07) <<< 8) + regaddr
  let startpagebase := memaddr &&& compl64 (pagesize - 1)
  match pvtRW pagesize mem memaddr startpagebase wb rlen with
  | none => ⟨mem, 0, 0, [], some .outOfRange⟩
  | some (mem1, rbs) => ⟨mem1, wb.length, rlen, rbs, none⟩

/-- `PVT24.Transact16x8`: as `pvtT8` with the banked bits shifted by 16. -/
def pvtT16 (pagesize : Nat) (mem : List Nat) (addr : Addr) (regaddr : Nat)
    (wb : List Nat) (rlen : Nat) : TxResult (List Nat) :=
  let memaddr := ((addr.GetBaseAddr &&& 0x07) <<< 16) + regaddr
  let startpagebase := memaddr &&& compl64 (pagesize - 1)
  match pvtRW pagesize mem memaddr startpagebase wb rlen with
  | none => ⟨mem, 0, 0, [], some .outOfRange⟩
  | some (mem1, rbs) => ⟨mem1, wb.length, rlen, rbs, none⟩

/-- The PVT24 device as a transactor whose state is its memory. -/
def pvtT (pagesize : Nat) : Transactor (List Nat) where
  t8 := pvtT8 pagesize
  t16 := pvtT16 pagesize

/-! ## Concrete bus masters and transactors used as witnesses -/

/-- A fault-free bus master: primitives always succeed; `readByte` yields
the current counter value. -/
def ffMaster : Master Nat where
  start := fun s => (s, none)
  stop := fun s => (s, none)
  writeByte := fun _ s => (s, none)
  readByte := fun _ s => (s + 1, s % 256, none)

/-- A bus master that ACKs everything except the `k`-th `writeByte` call
(0-based), which it NACKs.  The state counts `writeByte` calls. -/
def nackOnWrite (k : Nat) : Master Nat where
  start := fun s => (s, none)
  stop := fun s => (s, none)
  writeByte := fun _ s =>
    (s + 1, if s = k then some .nackReceived else none)
  readByte := fun _ s => (s, 0, none)

/-- A trivially fault-free transactor: accepts every call, reads zeros. -/
def okT : Transactor Unit where
  t8 := fun _ _ _ w rl => ⟨(), w.length, rl, List.replicate rl 0, none⟩
  t16 := fun _ _ _ w rl => ⟨(), w.length, rl, List.replicate rl 0, none⟩

/-! ## Specification-side predicates -/

/-- A fault-free bus: every primitive call succeeds from every state. -/
def FaultFreeM (M : Master σ) : Prop :=
  (∀ s, (M.start s).2 = none) ∧ (∀ s, (M.stop s).2 = none) ∧
  (∀ b s, (M.writeByte b s).2 = none) ∧ (∀ a s, (M.readByte a s).2.2 = none)

/-- A fault-free transactor: every call succeeds, reporting all requested
bytes written and read. -/
def FaultFreeT (T : Transactor σ) : Prop :=
  (∀ s da ra w rl, (T.t8 s da ra w rl).err = none ∧
    (T.t8 s da ra w rl).nw = w.length ∧ (T.t8 s da ra w rl).nr = rl) ∧
  (∀ s da ra w rl, (T.t16 s da ra w rl).err = none ∧
    (T.t16 s da ra w rl).nw = w.length ∧ (T.t16 s da ra w rl).nr = rl)

/-- A transactor honoring the interface contract the driver relies on:
it never reports more bytes read than requested, and it never returns the
driver-internal `eePanicBeyondEnd` outcome. -/
def BoundedT (T : Transactor σ) : Prop :=
  (∀ s da ra w rl, (T.t8 s da ra w rl).nr ≤ rl ∧
    (T.t8 s da ra w rl).err ≠ some .eePanicBeyondEnd) ∧
  (∀ s da ra w rl, (T.t16 s da ra w rl).nr ≤ rl ∧
    (T.t16 s da ra w rl).err ≠ some .eePanicBeyondEnd)

/-- The expected bus events of a read phase: every byte acknowledged
except the last. -/
def readEvs : List Nat → List BusEvent
  | [] => []
  | [b] => [.evRead false b]
  | b :: b2 :: bs => .evRead true b :: readEvs (b2 :: bs)

/-- A driver-issued transaction respects the page-and-mode discipline of
configuration `conf` for a device based at `base`: issued while the
pointer was inside the array, read-free, register and device address
computed by the banking rule from the issue pointer, and the chunk
contained in the page the issue pointer lies in. -/
def chunkOK (conf : EEPROM24Config) (base : Nat) : TxEvent → Prop
  | .tx8 q da ra w rl =>
    conf.hasSmallAddresses = true ∧ q < conf.Size ∧ rl = 0 ∧
    da = Addr.addr7 (u8 (u16 (base + u16 (q >>> 8)))) ∧
    ra = u8 (q &&& 0xff) ∧
    w.length ≤ conf.PageSize - q % conf.PageSize
  | .tx16 q da ra w rl =>
    conf.hasSmallAddresses = false ∧ q < conf.Size ∧ rl = 0 ∧
    da = Addr.addr7 (u8 (u16 (base + u16 (q >>> 16)))) ∧
    ra = u16 q ∧
    w.length ≤ conf.PageSize - q % conf.PageSize

/-- `overlay mem o b`: write the bytes of `b` into `mem` starting at
position `o` (the effect a correct sequence of EEPROM writes should have
on the device memory). -/
def overlay : List Nat → Nat → List Nat → List Nat
  | mem, _, [] => mem
  | mem, o, x :: xs => overlay (mem.set o x) (o + 1) xs

/-! ## Lemmas about the bus transaction layer -/

theorem busWriteList_ff (M : Master σ) (hff : FaultFreeM M) (s : σ)
    (w : List Nat) : (busWriteList M s w).trace = w.map .evWrite ∧
    (busWriteList M s w).nw = w.length ∧ (busWriteList M s w).err = none := by
  induction w generalizing s with
  | nil => simp [busWriteList]
  | cons b bs ih =>
    have hw := hff.2.2.1 b s
    rcases hb : M.writeByte b s with ⟨s1, e⟩
    rw [hb] at hw; simp at hw; subst hw
    simpa [busWriteList, hb] using ih s1

theorem busReadList_eq_cons {M : Master σ} {s s1 : σ} {b n : Nat}
    (hb : M.readByte (decide (n ≠ 0)) s = (s1, b, none)) :
    busReadList M s (n + 1) = ⟨(busReadList M s1 n).s,
      .evRead (decide (n ≠ 0)) b :: (busReadList M s1 n).trace,
      b :: (busReadList M s1 n).rb, (busReadList M s1 n).err⟩ := by
  simp only [busReadList]
  rw [hb]

theorem busReadList_ff (M : Master σ) (hff : FaultFreeM M) (s : σ)
    (n : Nat) : (busReadList M s n).trace = readEvs (busReadList M s n).rb ∧
    (busReadList M s n).rb.length = n ∧ (busReadList M s n).err = none := by
  induction n generalizing s with
  | zero => simp [busReadList, readEvs]
  | succ n ih =>
    have hr := hff.2.2.2 (decide (n ≠ 0)) s
    rcases hb : M.readByte (decide (n ≠ 0)) s with ⟨s1, b, e⟩
    rw [hb] at hr; simp at hr; subst hr
    rcases ih s1 with ⟨ht, hl, he⟩
    rw [busReadList_eq_cons hb]
    refine ⟨?_, by simpa using hl, by simpa using he⟩
    cases n with
    | zero =>
      have h0 : busReadList M s1 0 = ⟨s1, [], [], none⟩ := rfl
      rw [h0]
      simp [readEvs]
    | succ m =>
      rcases hcons : (busReadList M s1 (m + 1)).rb with _ | ⟨x, xs⟩
      · rw [hcons] at hl; simp at hl
      · rw [ht, hcons]
        show BusEvent.evRead (decide (m + 1 ≠ 0)) b :: readEvs (x :: xs)
          = readEvs (b :: x :: xs)
        simp [readEvs]

theorem busWriteList_err_none (M : Master σ) (s : σ) (w : List Nat)
    (h : (busWriteList M s w).err = none) :
    (busWriteList M s w).nw = w.length := by
  induction w generalizing s with
  | nil => simp [busWriteList]
  | cons b bs ih =>
    rcases hb : M.writeByte b s with ⟨s1, e⟩
    cases e with
    | some e => rw [busWriteList, hb] at h ⊢; simp at h
    | none =>
      rw [busWriteList, hb] at h ⊢
      simpa using ih s1 (by simpa using h)

theorem busReadList_err_none (M : Master σ) (s : σ) (n : Nat)
    (h : (busReadList M s n).err = none) :
    (busReadList M s n).rb.length = n := by
  induction n generalizing s with
  | zero => simp [busReadList]
  | succ n ih =>
    rcases hb : M.readByte (decide (n ≠ 0)) s with ⟨s1, b, e⟩
    cases e with
    | some e => rw [busReadList, hb] at h ⊢; simp at h
    | none =>
      rw [busReadList, hb] at h ⊢
      simpa using ih s1 (by simpa using h)

theorem busWriteList_no_stop (M : Master σ) (s : σ) (w : List Nat) :
    BusEvent.evStop ∉ (busWriteList M s w).trace := by
  induction w generalizing s with
  | nil => simp [busWriteList]
  | cons b bs ih =>
    rcases hb : M.writeByte b s with ⟨s1, e⟩
    cases e with
    | some e => simp [busWriteList, hb]
    | none => simpa [busWriteList, hb] using ih s1

theorem busReadList_eq_err {M : Master σ} {s s1 : σ} {b n : Nat} {e : Err}
    (hb : M.readByte (decide (n ≠ 0)) s = (s1, b, some e)) :
    busReadList M s (n + 1) = ⟨s1, [.evRead (decide (n ≠ 0)) b], [], some e⟩ := by
  simp only [busReadList]
  rw [hb]

theorem busReadList_no_stop (M : Master σ) (s : σ) (n : Nat) :
    BusEvent.evStop ∉ (busReadList M s n).trace := by
  induction n generalizing s with
  | zero => simp [busReadList]
  | succ n ih =>
    rcases hb : M.readByte (decide (n ≠ 0)) s with ⟨s1, b, e⟩
    cases e with
    | some e => rw [busReadList_eq_err hb]; simp
    | none => rw [busReadList_eq_cons hb]; simpa using ih s1

theorem innerTransact_no_stop (M : Master σ) (s : σ) (addrb regaddr : Nat)
    (w : List Nat) (rlen : Nat) :
    BusEvent.evStop ∉ (innerTransact M s addrb regaddr w rlen).trace := by
  rw [innerTransact]
  rcases h1 : M.writeByte addrb s with ⟨s1, e1⟩
  simp only [h1]
  cases e1 with
  | some e => simp
  | none =>
    rcases h2 : M.writeByte regaddr s1 with ⟨s2, e2⟩
    simp only [h2]
    cases e2 with
    | some e => simp
    | none =>
      have hwl := busWriteList_no_stop M s2 w
      rcases h3 : (busWriteList M s2 w).err with _ | e3
      · simp only [h3]
        by_cases hr : 0 < rlen
        · simp only [if_pos hr]
          rcases h4 : M.start (busWriteList M s2 w).s with ⟨s4, e4⟩
          cases e4 with
          | some e => simp [h4, hwl]
          | none =>
            rcases h5 : M.writeByte (addrb ||| 1) s4 with ⟨s5, e5⟩
            cases e5 with
            | some e => simp [h5, hwl]
            | none =>
              have hrl := busReadList_no_stop M s5 rlen
              simp [h5, hwl, hrl]
        · simp [if_neg hr, hwl]
      · simp [h3, hwl]

theorem innerTransact_err_none (M : Master σ) (s : σ) (addrb regaddr : Nat)
    (w : List Nat) (rlen : Nat)
    (h : (innerTransact M s addrb regaddr w rlen).err = none) :
    (innerTransact M s addrb regaddr w rlen).nw = w.length ∧
    (innerTransact M s addrb regaddr w rlen).rb.length = rlen := by
  rw [innerTransact] at h ⊢
  rcases h1 : M.writeByte addrb s with ⟨s1, e1⟩
  simp only [h1] at h ⊢
  cases e1 with
  | some e => simp at h
  | none =>
    rcases h2 : M.writeByte regaddr s1 with ⟨s2, e2⟩
    simp only [h2] at h ⊢
    cases e2 with
    | some e => simp at h
    | none =>
      rcases h3 : (busWriteList M s2 w).err with _ | e3
      · simp only [h3] at h ⊢
        by_cases hr : 0 < rlen
        · simp only [if_pos hr] at h ⊢
          rcases h4 : M.start (busWriteList M s2 w).s with ⟨s4, e4⟩
          simp only [h4] at h ⊢
          cases e4 with
          | some e => simp at h
          | none =>
            rcases h5 : M.writeByte (addrb ||| 1) s4 with ⟨s5, e5⟩
            simp only [h5] at h ⊢
            cases e5 with
            | some e => simp at h
            | none =>
              simp only at h ⊢
              exact ⟨busWriteList_err_none M s2 w h3,
                busReadList_err_none M s5 rlen h⟩
        · simp only [if_neg hr] at h ⊢
          refine ⟨busWriteList_err_none M s2 w h3, ?_⟩
          simp; omega
      · simp only [h3] at h; simp at h

theorem innerTransact_ff (M : Master σ) (hff : FaultFreeM M) (s : σ)
    (addrb regaddr : Nat) (w : List Nat) (rlen : Nat) (hr : 0 < rlen) :
    (innerTransact M s addrb regaddr w rlen).trace =
      .evWrite addrb :: .evWrite regaddr ::
        (w.map .evWrite ++ .evStart :: .evWrite (addrb ||| 1) ::
          readEvs (innerTransact M s addrb regaddr w rlen).rb) ∧
    (innerTransact M s addrb regaddr w rlen).rb.length = rlen ∧
    (innerTransact M s addrb regaddr w rlen).err = none ∧
    (innerTransact M s addrb regaddr w rlen).nw = w.length := by
  rw [innerTransact]
  rcases h1 : M.writeByte addrb s with ⟨s1, e1⟩
  have he1 := hff.2.2.1 addrb s
  rw [h1] at he1; simp at he1; subst he1
  simp only []
  rcases h2 : M.writeByte regaddr s1 with ⟨s2, e2⟩
  have he2 := hff.2.2.1 regaddr s1
  rw [h2] at he2; simp at he2; subst he2
  simp only []
  obtain ⟨hwt, hwn, hwe⟩ := busWriteList_ff M hff s2 w
  simp only [hwe, if_pos hr]
  rcases h4 : M.start (busWriteList M s2 w).s with ⟨s4, e4⟩
  have he4 := hff.1 (busWriteList M s2 w).s
  rw [h4] at he4; simp at he4; subst he4
  simp only []
  rcases h5 : M.writeByte (addrb ||| 1) s4 with ⟨s5, e5⟩
  have he5 := hff.2.2.1 (addrb ||| 1) s4
  rw [h5] at he5; simp at he5; subst he5
  simp only []
  obtain ⟨hrt, hrl, hre⟩ := busReadList_ff M hff s5 rlen
  refine ⟨?_, by simpa using hrl, by simpa using hre, by simpa using hwn⟩
  rw [hwt, hrt]

theorem I2CMasterTransact8x8_err_none (M : Master σ) (s : σ) (addr : Addr)
    (regaddr : Nat) (w : List Nat) (rlen : Nat)
    (h : (I2CMasterTransact8x8 M s addr regaddr w rlen).err = none) :
    (I2CMasterTransact8x8 M s addr regaddr w rlen).nw = w.length ∧
    (I2CMasterTransact8x8 M s addr regaddr w rlen).nr = rlen := by
  rw [I2CMasterTransact8x8] at h ⊢
  by_cases h7 : addr.GetAddrLen ≠ 7
  · rw [if_pos h7] at h; simp at h
  · rw [if_neg h7] at h; rw [if_neg h7]
    rcases hs : M.start s with ⟨s1, e0⟩
    rw [hs] at h
    cases e0 with
    | some e => simp at h
    | none =>
      simp only [] at h ⊢
      rcases hie : (innerTransact M s1 ((addr.GetBaseAddr <<< 1) % 256)
          regaddr w rlen).err with _ | e
      · rw [hie] at h
        obtain ⟨hnw, hrb⟩ := innerTransact_err_none M s1 _ regaddr w rlen hie
        exact ⟨hnw, hrb⟩
      · rw [hie] at h; simp at h

/-- **C2.**  For every `Transact8x8` call with a 7-bit device address,
non-empty write buffer `w` and non-empty read buffer, on a fault-free bus
the exact sequence of bus-primitive calls is: start; the device address
shifted left with the write bit; the register address; the write bytes in
order; a repeated start; the device address with the read bit; one read
per requested byte, acknowledging all but the last; stop — and nothing
else. -/
theorem c2_wire_sequence (M : Master σ) (s : σ) (a regaddr : Nat)
    (w : List Nat) (rlen : Nat) (hff : FaultFreeM M) (hw : w ≠ [])
    (hr : 0 < rlen) :
    (I2CMasterTransact8x8 M s (.addr7 a) regaddr w rlen).trace =
      [.evStart, .evWrite (((Addr.addr7 a).GetBaseAddr <<< 1) % 256),
        .evWrite regaddr] ++ w.map .evWrite ++
      [.evStart, .evWrite (((((Addr.addr7 a).GetBaseAddr <<< 1) % 256)) ||| 1)] ++
      readEvs (I2CMasterTransact8x8 M s (.addr7 a) regaddr w rlen).rb ++
      [.evStop] ∧
    (I2CMasterTransact8x8 M s (.addr7 a) regaddr w rlen).nr = rlen ∧
    (I2CMasterTransact8x8 M s (.addr7 a) regaddr w rlen).nw = w.length ∧
    (I2CMasterTransact8x8 M s (.addr7 a) regaddr w rlen).err = none := by
  rw [I2CMasterTransact8x8]
  have h7 : ¬ (Addr.addr7 a).GetAddrLen ≠ 7 := by simp [Addr.GetAddrLen]
  rw [if_neg h7]
  rcases hs : M.start s with ⟨s1, e0⟩
  have he0 := hff.1 s
  rw [hs] at he0; simp at he0; subst he0
  obtain ⟨hit, hil, hie, hin⟩ := innerTransact_ff M hff s1
    (((Addr.addr7 a).GetBaseAddr <<< 1) % 256) regaddr w rlen hr
  simp only []
  rw [hit, hie]
  have hstop := hff.2.1 (innerTransact M s1
    (((Addr.addr7 a).GetBaseAddr <<< 1) % 256) regaddr w rlen).s
  refine ⟨by simp, by simpa using hil, by simpa using hin, by simpa using hstop⟩

/-- Witness for `c2_wire_sequence` at `ffMaster`, address `0x50`,
register 1, write bytes `[2, 3]`, two read bytes. -/
theorem c2_wire_sequence_witness :
    FaultFreeM ffMaster ∧ ([2, 3] : List Nat) ≠ [] ∧ 0 < 2 ∧
    (I2CMasterTransact8x8 ffMaster 0 (.addr7 0x50) 1 [2, 3] 2).trace =
      [.evStart, .evWrite (((Addr.addr7 0x50).GetBaseAddr <<< 1) % 256),
        .evWrite 1] ++ [2, 3].map .evWrite ++
      [.evStart, .evWrite (((((Addr.addr7 0x50).GetBaseAddr <<< 1) % 256)) ||| 1)] ++
      readEvs (I2CMasterTransact8x8 ffMaster 0 (.addr7 0x50) 1 [2, 3] 2).rb ++
      [.evStop] ∧
    (I2CMasterTransact8x8 ffMaster 0 (.addr7 0x50) 1 [2, 3] 2).nr = 2 ∧
    (I2CMasterTransact8x8 ffMaster 0 (.addr7 0x50) 1 [2, 3] 2).nw =
      [2, 3].length ∧
    (I2CMasterTransact8x8 ffMaster 0 (.addr7 0x50) 1 [2, 3] 2).err = none := by
  have hff : FaultFreeM ffMaster :=
    ⟨fun _ => rfl, fun _ => rfl, fun _ _ => rfl, fun _ _ => rfl⟩
  exact ⟨hff, by decide, by decide,
    c2_wire_sequence ffMaster 0 0x50 1 [2, 3] 2 hff (by decide) (by decide)⟩

/-- **C8.**  Once the initial start succeeds, a stop condition is issued
exactly once before the call returns, regardless of whether the inner
steps succeeded; if an inner step faulted, the stop's own outcome is
discarded and the first fault is reported, otherwise the stop's outcome
is the transaction's outcome. -/
theorem c8_stop_always_issued (M : Master σ) (s : σ) (addr : Addr)
    (regaddr : Nat) (w : List Nat) (rlen : Nat) (h7 : addr.GetAddrLen = 7)
    (hst : (M.start s).2 = none) :
    (I2CMasterTransact8x8 M s addr regaddr w rlen).trace =
      .evStart :: (innerTransact M (M.start s).1 ((addr.GetBaseAddr <<< 1) % 256)
        regaddr w rlen).trace ++ [.evStop] ∧
    (innerTransact M (M.start s).1 ((addr.GetBaseAddr <<< 1) % 256)
      regaddr w rlen).trace.count .evStop = 0 ∧
    (I2CMasterTransact8x8 M s addr regaddr w rlen).trace.count .evStop = 1 ∧
    (I2CMasterTransact8x8 M s addr regaddr w rlen).err =
      (match (innerTransact M (M.start s).1 ((addr.GetBaseAddr <<< 1) % 256)
          regaddr w rlen).err with
        | some e => some e
        | none => (M.stop (innerTransact M (M.start s).1
            ((addr.GetBaseAddr <<< 1) % 256) regaddr w rlen).s).2) := by
  have hnostop := innerTransact_no_stop M (M.start s).1
    ((addr.GetBaseAddr <<< 1) % 256) regaddr w rlen
  rw [I2CMasterTransact8x8]
  have h7n : ¬ addr.GetAddrLen ≠ 7 := by simp [h7]
  rw [if_neg h7n]
  rcases hs : M.start s with ⟨s1, e0⟩
  rw [hs] at hst hnostop
  simp only [] at hst hnostop ⊢
  subst hst
  refine ⟨rfl, List.count_eq_zero.mpr hnostop, ?_, rfl⟩
  simp [List.count_cons, List.count_append, List.count_eq_zero.mpr hnostop]

/-- Witness for `c8_stop_always_issued` at `ffMaster` with a one-byte
write and a one-byte read. -/
theorem c8_stop_always_issued_witness :
    (Addr.addr7 0x50).GetAddrLen = 7 ∧ (ffMaster.start 0).2 = none ∧
    ((I2CMasterTransact8x8 ffMaster 0 (.addr7 0x50) 4 [1] 1).trace =
      .evStart :: (innerTransact ffMaster (ffMaster.start 0).1
        (((Addr.addr7 0x50).GetBaseAddr <<< 1) % 256) 4 [1] 1).trace ++
        [.evStop] ∧
    (innerTransact ffMaster (ffMaster.start 0).1
      (((Addr.addr7 0x50).GetBaseAddr <<< 1) % 256) 4 [1] 1).trace.count
        .evStop = 0 ∧
    (I2CMasterTransact8x8 ffMaster 0 (.addr7 0x50) 4 [1] 1).trace.count
      .evStop = 1 ∧
    (I2CMasterTransact8x8 ffMaster 0 (.addr7 0x50) 4 [1] 1).err =
      (match (innerTransact ffMaster (ffMaster.start 0).1
          (((Addr.addr7 0x50).GetBaseAddr <<< 1) % 256) 4 [1] 1).err with
        | some e => some e
        | none => (ffMaster.stop (innerTransact ffMaster (ffMaster.start 0).1
            (((Addr.addr7 0x50).GetBaseAddr <<< 1) % 256) 4 [1] 1).s).2)) :=
  ⟨rfl, rfl, c8_stop_always_issued ffMaster 0 (.addr7 0x50) 4 [1] 1 rfl rfl⟩

/-- **C4, counterexample.**  A bus that ACKs the first three byte writes
and NACKs the fourth: the fourth write is the device-address byte with
the read bit (`0xa1`) of the read phase.  The outcome is indeed
`noSuchDevice`, but the reported bytes-written count is 1, not 0 — the
payload byte had already been transferred — refuting the claim that both
counts are zero whenever a device-address write goes unacknowledged. -/
theorem c4_counterexample :
    ((nackOnWrite 3).writeByte 0xa1 3).2 = some .nackReceived ∧
    (I2CMasterTransact8x8 (nackOnWrite 3) 0 (.addr7 0x50) 0 [5] 1).trace =
      [.evStart, .evWrite 0xa0, .evWrite 0, .evWrite 5, .evStart,
        .evWrite 0xa1, .evStop] ∧
    (I2CMasterTransact8x8 (nackOnWrite 3) 0 (.addr7 0x50) 0 [5] 1).err =
      some .noSuchDevice ∧
    (I2CMasterTransact8x8 (nackOnWrite 3) 0 (.addr7 0x50) 0 [5] 1).nw = 1 := by
  decide

/-- **C4, amended.**  When the *initial* device-address write (the write
phase address byte) receives no acknowledgment, the outcome is the
distinguished `noSuchDevice` error and both progress counts are zero.
(When the read-phase repeated device-address write is the one NACKed,
the outcome is still `noSuchDevice` but bytes-written reflects the
payload bytes already transferred.) -/
theorem c4_amended_no_device (M : Master σ) (s : σ) (addr : Addr)
    (regaddr : Nat) (w : List Nat) (rlen : Nat) (h7 : addr.GetAddrLen = 7)
    (hst : (M.start s).2 = none)
    (hnack : (M.writeByte ((addr.GetBaseAddr <<< 1) % 256) (M.start s).1).2 =
      some .nackReceived) :
    (I2CMasterTransact8x8 M s addr regaddr w rlen).nw = 0 ∧
    (I2CMasterTransact8x8 M s addr regaddr w rlen).nr = 0 ∧
    (I2CMasterTransact8x8 M s addr regaddr w rlen).err =
      some .noSuchDevice := by
  have hfirst : ∀ s0, (M.writeByte ((addr.GetBaseAddr <<< 1) % 256) s0).2 =
      some .nackReceived →
      innerTransact M s0 ((addr.GetBaseAddr <<< 1) % 256) regaddr w rlen =
        ⟨(M.writeByte ((addr.GetBaseAddr <<< 1) % 256) s0).1,
          [.evWrite ((addr.GetBaseAddr <<< 1) % 256)], 0, [],
          some .noSuchDevice⟩ := by
    intro s0 hn
    rw [innerTransact]
    rcases h1 : M.writeByte ((addr.GetBaseAddr <<< 1) % 256) s0 with ⟨s2, e1⟩
    rw [h1] at hn
    simp only [] at hn
    subst hn
    simp [mapNoDev]
  rw [I2CMasterTransact8x8]
  have h7n : ¬ addr.GetAddrLen ≠ 7 := by simp [h7]
  rw [if_neg h7n]
  rcases hs : M.start s with ⟨s1, e0⟩
  rw [hs] at hst hnack
  simp only [] at hst hnack
  subst hst
  simp only []
  rw [hfirst s1 hnack]
  simp

/-- Witness for `c4_amended_no_device`: `nackOnWrite 0` NACKs the very
first byte write, which is the device-address byte. -/
theorem c4_amended_no_device_witness :
    (Addr.addr7 0x50).GetAddrLen = 7 ∧ ((nackOnWrite 0).start 0).2 = none ∧
    ((nackOnWrite 0).writeByte (((Addr.addr7 0x50).GetBaseAddr <<< 1) % 256)
      ((nackOnWrite 0).start 0).1).2 = some .nackReceived ∧
    ((I2CMasterTransact8x8 (nackOnWrite 0) 0 (.addr7 0x50) 9 [5] 1).nw = 0 ∧
    (I2CMasterTransact8x8 (nackOnWrite 0) 0 (.addr7 0x50) 9 [5] 1).nr = 0 ∧
    (I2CMasterTransact8x8 (nackOnWrite 0) 0 (.addr7 0x50) 9 [5] 1).err =
      some .noSuchDevice) :=
  ⟨rfl, rfl, by decide,
    c4_amended_no_device (nackOnWrite 0) 0 (.addr7 0x50) 9 [5] 1 rfl rfl
      (by decide)⟩

/-- **C3.**  `Transact16x8` delegates to the 8-bit executor with the high
address byte in the register-address slot and the low address byte
prepended to the write buffer; the reported bytes-written count is the
delegated count minus one whenever the delegated count is positive, so on
success it equals the caller's original write length and the synthetic
address-low byte is never counted; bytes-read passes through unchanged. -/
theorem c3_transact16x8_accounting (M : Master σ) (s : σ) (addr : Addr)
    (regaddr : Nat) (w : List Nat) (rlen : Nat) :
    Transact16x8 M s addr regaddr w rlen =
      { I2CMasterTransact8x8 M s addr ((regaddr >>> 8) % 256)
          ((regaddr % 256) :: w) rlen with
        nw := if 0 < (I2CMasterTransact8x8 M s addr ((regaddr >>> 8) % 256)
            ((regaddr % 256) :: w) rlen).nw then
          (I2CMasterTransact8x8 M s addr ((regaddr >>> 8) % 256)
            ((regaddr % 256) :: w) rlen).nw - 1
        else (I2CMasterTransact8x8 M s addr ((regaddr >>> 8) % 256)
            ((regaddr % 256) :: w) rlen).nw } ∧
    ((Transact16x8 M s addr regaddr w rlen).err = none →
      (I2CMasterTransact8x8 M s addr ((regaddr >>> 8) % 256)
        ((regaddr % 256) :: w) rlen).nw = w.length + 1 ∧
      (Transact16x8 M s addr regaddr w rlen).nw = w.length ∧
      (Transact16x8 M s addr regaddr w rlen).nr = rlen) := by
  refine ⟨rfl, fun herr => ?_⟩
  have herr8 : (I2CMasterTransact8x8 M s addr ((regaddr >>> 8) % 256)
      ((regaddr % 256) :: w) rlen).err = none := herr
  obtain ⟨hnw, hnr⟩ := I2CMasterTransact8x8_err_none M s addr
    ((regaddr >>> 8) % 256) ((regaddr % 256) :: w) rlen herr8
  simp only [List.length_cons] at hnw
  refine ⟨hnw, ?_, hnr⟩
  show (if 0 < (I2CMasterTransact8x8 M s addr ((regaddr >>> 8) % 256)
      ((regaddr % 256) :: w) rlen).nw then
    (I2CMasterTransact8x8 M s addr ((regaddr >>> 8) % 256)
      ((regaddr % 256) :: w) rlen).nw - 1
  else (I2CMasterTransact8x8 M s addr ((regaddr >>> 8) % 256)
      ((regaddr % 256) :: w) rlen).nw) = w.length
  rw [hnw]
  simp

/-- Witness for `c3_transact16x8_accounting` at `ffMaster`, register
address `0x1234`, two write bytes and one read byte. -/
theorem c3_transact16x8_accounting_witness :
    (Transact16x8 ffMaster 0 (.addr7 0x50) 0x1234 [7, 8] 1).err = none ∧
    ((I2CMasterTransact8x8 ffMaster 0 (.addr7 0x50) ((0x1234 >>> 8) % 256)
      ((0x1234 % 256) :: [7, 8]) 1).nw = [7, 8].length + 1 ∧
    (Transact16x8 ffMaster 0 (.addr7 0x50) 0x1234 [7, 8] 1).nw =
      [7, 8].length ∧
    (Transact16x8 ffMaster 0 (.addr7 0x50) 0x1234 [7, 8] 1).nr = 1) :=
  ⟨by decide,
    (c3_transact16x8_accounting ffMaster 0 (.addr7 0x50) 0x1234 [7, 8] 1).2
      (by decide)⟩

/-! ## Arithmetic facts about the configuration validation -/

theorem ispow2Loop_two_pow :
    ∀ (fuel n : Nat), n ≤ fuel → ispow2Loop fuel n = 1 → ∃ k, n = 2 ^ k := by
  intro fuel
  induction fuel with
  | zero =>
    intro n hle h
    rw [ispow2Loop] at h
    exact ⟨0, by simpa using h⟩
  | succ fuel ih =>
    intro n hle h
    rw [ispow2Loop] at h
    by_cases hc : (n &&& 0x01) = 0 ∧ 0 < n
    · rw [if_pos hc] at h
      have heven : n % 2 = 0 := by
        have := hc.1
        simpa [Nat.and_one_is_mod] using this
      have hsh : n >>> 1 = n / 2 := Nat.shiftRight_one n
      obtain ⟨k, hk⟩ := ih (n >>> 1) (by omega) h
      have hdiv : n / 2 = 2 ^ k := by rw [← hsh, hk]
      refine ⟨k + 1, ?_⟩
      have hn2 : n = 2 * (n / 2) := by omega
      rw [hn2, hdiv, Nat.pow_succ]
      ring
    · rw [if_neg hc] at h
      exact ⟨0, by simpa using h⟩

theorem ispow2_two_pow (n : Nat) (h : ispow2 n = true) : ∃ k, n = 2 ^ k := by
  rw [ispow2] at h
  exact ispow2Loop_two_pow n n (le_refl n) (by simpa using h)

theorem NewEEPROM24_ok {devaddr : Addr} {conf : EEPROM24Config} {e0 : Ee24}
    (h : NewEEPROM24 devaddr conf = .ok e0) :
    conf.PageSize ≤ conf.Size ∧ conf.Size ≤ MAX_EEPROM_SIZE ∧
    ispow2 conf.Size = true ∧ ispow2 conf.PageSize = true ∧
    devaddr.GetAddrLen = 7 ∧ e0 = ⟨conf, 0, devaddr⟩ := by
  rw [NewEEPROM24] at h
  split_ifs at h with h1 h2 h3 h4 h5
  refine ⟨by omega, by omega, ?_, ?_, by omega, ?_⟩
  · simpa using h3
  · simpa using h4
  · simp only [Except.ok.injEq] at h
    exact h.symm

/-- `p & (2^k - 1) = p % 2^k` specialized through an equation for the
page size. -/
theorem and_mask_eq_mod {pg : Nat} (k : Nat) (hk : pg = 2 ^ k) (p : Nat) :
    p &&& (pg - 1) = p % pg := by
  subst hk
  exact Nat.and_pow_two_sub_one_eq_mod p k

/-- Completing the page starting at `p` stays within a size the page
size divides. -/
theorem page_step_le {pg S p : Nat} (hpg : 0 < pg) (hd : pg ∣ S)
    (hp : p < S) : p + (pg - p % pg) ≤ S := by
  have hmod : p % pg < pg := Nat.mod_lt _ hpg
  have h3 : p % pg + (pg - p % pg) = pg := Nat.add_sub_cancel' (le_of_lt hmod)
  have key : p + (pg - p % pg) = (p / pg + 1) * pg := by
    calc p + (pg - p % pg)
        = pg * (p / pg) + (p % pg + (pg - p % pg)) := by
          rw [← Nat.add_assoc, Nat.div_add_mod]
      _ = pg * (p / pg) + pg := by rw [h3]
      _ = (p / pg + 1) * pg := by ring
  have h4 : p / pg + 1 ≤ S / pg :=
    Nat.succ_le_of_lt (Nat.div_lt_div_of_lt_of_dvd hd hp)
  have h5 : (p / pg + 1) * pg ≤ (S / pg) * pg := Nat.mul_le_mul_right pg h4
  rw [key]
  exact h5.trans (le_of_eq (Nat.div_mul_cancel hd))

/-- The page size of a valid configuration divides its total size. -/
theorem pagesize_dvd_size {conf : EEPROM24Config}
    (hS : ispow2 conf.Size = true) (hP : ispow2 conf.PageSize = true)
    (hle : conf.PageSize ≤ conf.Size) : conf.PageSize ∣ conf.Size := by
  obtain ⟨j, hj⟩ := ispow2_two_pow _ hS
  obtain ⟨k, hk⟩ := ispow2_two_pow _ hP
  rw [hj, hk] at hle ⊢
  exact pow_dvd_pow 2 ((Nat.pow_le_pow_iff_right (by norm_num)).mp hle)

/-- The clean form of the banked device address in small-address mode. -/
theorem small_devaddr_eq {base q : Nat} (hb : base ≤ 127) (hq : q < 2 ^ 11) :
    u8 (u16 (base + u16 (q >>> 8))) = base + q >>> 8 := by
  have h1 : q >>> 8 < 8 := by
    rw [Nat.shiftRight_eq_div_pow]
    omega
  simp only [u8, u16]
  omega

/-- The clean form of the banked device address in large-address mode. -/
theorem large_devaddr_eq {base q : Nat} (hb : base ≤ 127) (hq : q < 2 ^ 19) :
    u8 (u16 (base + u16 (q >>> 16))) = base + q >>> 16 := by
  have h1 : q >>> 16 < 8 := by
    rw [Nat.shiftRight_eq_div_pow]
    omega
  simp only [u8, u16]
  omega

/-- The clean form of the small-mode register address. -/
theorem small_regaddr_eq (q : Nat) : u8 (q &&& 0xff) = q % 256 := by
  have h : q &&& 0xff = q % 256 := by
    have := Nat.and_pow_two_sub_one_eq_mod q 8
    norm_num at this
    exact this
  simp [u8, h, Nat.mod_mod_of_dvd]

theorem min_ite_le (L A : Nat) : min (if L > A then A else L) L ≤ A := by
  by_cases h : L > A
  · simp only [if_pos h]
    omega
  · simp only [if_neg h]
    omega

/-! ## The page-and-banking discipline of the driver's transactions -/

/-- Every transaction issued by the `ee24.Write` loop of a driver whose
page size is a power of two respects the page-and-mode discipline
(`chunkOK`), and is issued at or after the entry file pointer. -/
theorem ee24WriteLoop_trace (T : Transactor σ) (k : Nat) :
    ∀ (fuel origsize : Nat) (s : σ) (e : Ee24) (b : List Nat),
      e.conf.PageSize = 2 ^ k →
      ∀ ev ∈ (ee24WriteLoop T origsize fuel s e b).trace,
        chunkOK e.conf e.devaddr.GetBaseAddr ev ∧ e.p ≤ ev.atP := by
  intro fuel
  induction fuel with
  | zero =>
    intro origsize s e b hk ev hev
    simp [ee24WriteLoop] at hev
  | succ fuel ih =>
    intro origsize s e b hk ev hev
    simp only [ee24WriteLoop] at hev
    split at hev
    case isTrue hcond =>
      have haip := and_mask_eq_mod k hk e.p
      cases hsm : e.conf.hasSmallAddresses with
      | true =>
        rw [hsm] at hev
        rw [if_pos rfl] at hev
        split at hev
        · simp only [List.mem_singleton] at hev
          subst hev
          refine ⟨⟨hsm, hcond.2, rfl, rfl, rfl, ?_⟩, le_refl _⟩
          rw [List.length_take, haip]
          exact min_ite_le _ _
        · simp only [List.mem_cons] at hev
          rcases hev with hev | htail
          · subst hev
            refine ⟨⟨hsm, hcond.2, rfl, rfl, rfl, ?_⟩, le_refl _⟩
            rw [List.length_take, haip]
            exact min_ite_le _ _
          · obtain ⟨hok, hle⟩ := ih origsize _ _ _ (by exact hk) ev htail
            exact ⟨hok, le_trans (Nat.le_add_right _ _) hle⟩
      | false =>
        rw [hsm] at hev
        rw [if_neg Bool.false_ne_true] at hev
        split at hev
        · simp only [List.mem_singleton] at hev
          subst hev
          refine ⟨⟨hsm, hcond.2, rfl, rfl, rfl, ?_⟩, le_refl _⟩
          rw [List.length_take, haip]
          exact min_ite_le _ _
        · simp only [List.mem_cons] at hev
          rcases hev with hev | htail
          · subst hev
            refine ⟨⟨hsm, hcond.2, rfl, rfl, rfl, ?_⟩, le_refl _⟩
            rw [List.length_take, haip]
            exact min_ite_le _ _
          · obtain ⟨hok, hle⟩ := ih origsize _ _ _ (by exact hk) ev htail
            exact ⟨hok, le_trans (Nat.le_add_right _ _) hle⟩
    case isFalse =>
      split at hev
      · simp at hev
      · split at hev
        · simp at hev
        · simp at hev

/-- The single transaction a `Read` issues (when it issues one) is issued
at the current file pointer, which then lies inside the array, with an
empty write phase, in the addressing mode of the configuration. -/
theorem ee24Read_trace (T : Transactor σ) (s : σ) (e : Ee24) (n : Nat) :
    ∀ ev ∈ (ee24Read T s e n).trace,
      e.p < e.conf.Size ∧
      (if e.conf.hasSmallAddresses = true then
        ∃ rl, ev = .tx8 e.p
          (.addr7 (u8 (u16 (e.devaddr.GetBaseAddr + u16 (e.p >>> 8)))))
          (u8 (e.p &&& 0xff)) [] rl
      else
        ∃ rl, ev = .tx16 e.p
          (.addr7 (u8 (u16 (e.devaddr.GetBaseAddr + u16 (e.p >>> 16)))))
          (u16 e.p) [] rl) := by
  intro ev hev
  rw [ee24Read] at hev
  by_cases hbig : e.p + n > e.conf.Size
  · rw [if_pos hbig] at hev
    by_cases hz : e.conf.Size - e.p = 0
    · rw [if_pos hz] at hev
      simp at hev
    · rw [if_neg hz] at hev
      refine ⟨by omega, ?_⟩
      cases hsm : e.conf.hasSmallAddresses with
      | true =>
        rw [hsm, if_pos rfl] at hev
        rw [if_pos rfl]
        simp only [List.mem_singleton] at hev
        exact ⟨_, hev⟩
      | false =>
        rw [hsm, if_neg Bool.false_ne_true] at hev
        rw [if_neg Bool.false_ne_true]
        simp only [List.mem_singleton] at hev
        exact ⟨_, hev⟩
  · rw [if_neg hbig] at hev
    by_cases hz : e.p + n - e.p = 0
    · rw [if_pos hz] at hev
      simp at hev
    · rw [if_neg hz] at hev
      refine ⟨by omega, ?_⟩
      cases hsm : e.conf.hasSmallAddresses with
      | true =>
        rw [hsm, if_pos rfl] at hev
        rw [if_pos rfl]
        simp only [List.mem_singleton] at hev
        exact ⟨_, hev⟩
      | false =>
        rw [hsm, if_neg Bool.false_ne_true] at hev
        rw [if_neg Bool.false_ne_true]
        simp only [List.mem_singleton] at hev
        exact ⟨_, hev⟩

/-- **C1.**  For every driver accepted by construction and every `Write`
call, each transaction issued carries a chunk lying inside one page: its
write-byte count never exceeds `PageSize - (filePointer mod PageSize)`
at the moment it is issued; and with page size 8 and file pointer 6,
writing 4 bytes produces exactly two transactions of 2 bytes each. -/
theorem c1_page_boundary (T : Transactor σ) (s : σ) (devaddr : Addr)
    (conf : EEPROM24Config) (e0 e : Ee24) (b : List Nat)
    (hcons : NewEEPROM24 devaddr conf = .ok e0) (hc : e.conf = conf) :
    (∀ ev ∈ (ee24Write T s e b).trace,
      ev.wb.length ≤ e.conf.PageSize - ev.atP % e.conf.PageSize) ∧
    (ee24Write okT () ⟨⟨16, 8, 0⟩, 6, .addr7 0x50⟩ [1, 2, 3, 4]).trace =
      [.tx8 6 (.addr7 0x50) 6 [1, 2] 0, .tx8 8 (.addr7 0x50) 8 [3, 4] 0] := by
  obtain ⟨hle, hmax, hS, hP, h7, he0⟩ := NewEEPROM24_ok hcons
  obtain ⟨k, hk⟩ := ispow2_two_pow _ hP
  constructor
  · intro ev hev
    obtain ⟨hok, _⟩ := ee24WriteLoop_trace T k (b.length + 1) b.length s e b
      (by rw [hc, hk]) ev hev
    cases ev with
    | tx8 q da ra w rl => exact hok.2.2.2.2.2
    | tx16 q da ra w rl => exact hok.2.2.2.2.2
  · decide

/-- Witness for `c1_page_boundary` with the 16-byte/8-page configuration
at file pointer 6, writing `[1, 2, 3, 4]` through `okT`. -/
theorem c1_page_boundary_witness :
    NewEEPROM24 (.addr7 0x50) ⟨16, 8, 0⟩ =
      .ok ⟨⟨16, 8, 0⟩, 0, .addr7 0x50⟩ ∧
    ((∀ ev ∈ (ee24Write okT () ⟨⟨16, 8, 0⟩, 6, .addr7 0x50⟩
        [1, 2, 3, 4]).trace,
      ev.wb.length ≤ (⟨16, 8, 0⟩ : EEPROM24Config).PageSize -
        ev.atP % (⟨16, 8, 0⟩ : EEPROM24Config).PageSize) ∧
    (ee24Write okT () ⟨⟨16, 8, 0⟩, 6, .addr7 0x50⟩ [1, 2, 3, 4]).trace =
      [.tx8 6 (.addr7 0x50) 6 [1, 2] 0, .tx8 8 (.addr7 0x50) 8 [3, 4] 0]) :=
  ⟨by decide,
    c1_page_boundary okT () (.addr7 0x50) ⟨16, 8, 0⟩
      ⟨⟨16, 8, 0⟩, 0, .addr7 0x50⟩ ⟨⟨16, 8, 0⟩, 6, .addr7 0x50⟩ [1, 2, 3, 4]
      (by decide) rfl⟩

/-- **C7.**  The addressing mode is a pure function of the configured
size, decided at the `2^11`-byte threshold: in a small configuration
every transaction a `Read` or `Write` issues is an 8-bit-register one
with device address `base + (offset >> 8)` and register address
`offset mod 256`; in a large configuration every transaction is a
16-bit-register one with device address `base + (offset >> 16)` and
register address `offset mod 65536`; the two are never mixed. -/
theorem c7_addressing_mode (T : Transactor σ) (s s' : σ) (a : Nat)
    (conf : EEPROM24Config) (e0 e : Ee24) (b : List Nat) (n : Nat)
    (hcons : NewEEPROM24 (.addr7 a) conf = .ok e0)
    (hc : e.conf = conf) (hd : e.devaddr = .addr7 a)
    (hp : e.p ≤ conf.Size) :
    (conf.hasSmallAddresses = true ↔ conf.Size ≤ 2 ^ 11) ∧
    (∀ ev ∈ (ee24Read T s e n).trace ++ (ee24Write T s' e b).trace,
      if conf.hasSmallAddresses = true then
        ∃ q w rl, q < conf.Size ∧
          ev = .tx8 q (.addr7 ((a &&& 0x7f) + (q >>> 8))) (q % 256) w rl
      else
        ∃ q w rl, q < conf.Size ∧
          ev = .tx16 q (.addr7 ((a &&& 0x7f) + (q >>> 16))) (q % 65536) w rl) := by
  obtain ⟨hle, hmax, hS, hP, h7, he0⟩ := NewEEPROM24_ok hcons
  obtain ⟨k, hk⟩ := ispow2_two_pow _ hP
  have hmode : conf.hasSmallAddresses = true ↔ conf.Size ≤ 2 ^ 11 := by
    by_cases hsz : conf.Size ≤ 1 <<< 11
    · simp [EEPROM24Config.hasSmallAddresses, hsz]
    · simp [EEPROM24Config.hasSmallAddresses, hsz]
  have hbase : (Addr.addr7 a).GetBaseAddr ≤ 127 := by
    show a &&& 0x7f ≤ 127
    exact Nat.and_le_right
  have hmax19 : conf.Size ≤ 2 ^ 19 := by
    have : MAX_EEPROM_SIZE = 2 ^ 19 := by decide
    omega
  refine ⟨hmode, ?_⟩
  intro ev hev
  rcases List.mem_append.mp hev with hr | hw
  · obtain ⟨hq, hshape⟩ := ee24Read_trace T s e n ev hr
    rw [hc] at hq
    rw [hc, hd] at hshape
    cases hsm : conf.hasSmallAddresses with
    | true =>
      rw [if_pos rfl]
      rw [hsm, if_pos rfl] at hshape
      obtain ⟨rl, hev'⟩ := hshape
      have hq11 : e.p < 2 ^ 11 := by
        have hs2 := hmode.mp hsm
        omega
      refine ⟨e.p, [], rl, hq, ?_⟩
      rw [hev', small_devaddr_eq hbase hq11, small_regaddr_eq]
      rfl
    | false =>
      rw [if_neg Bool.false_ne_true]
      rw [hsm, if_neg Bool.false_ne_true] at hshape
      obtain ⟨rl, hev'⟩ := hshape
      refine ⟨e.p, [], rl, hq, ?_⟩
      rw [hev', large_devaddr_eq hbase (by omega)]
      rfl
  · obtain ⟨hok, _⟩ := ee24WriteLoop_trace T k (b.length + 1) b.length s' e b
      (by rw [hc, hk]) ev hw
    cases ev with
    | tx8 q da ra w rl =>
      obtain ⟨hsm8, hq, hrl, hda, hra, _⟩ := hok
      rw [hc] at hsm8 hq
      rw [hd] at hda
      rw [if_pos hsm8]
      refine ⟨q, w, rl, hq, ?_⟩
      have hq11 : q < 2 ^ 11 := by
        have := hmode.mp hsm8
        omega
      rw [hda, hra, small_devaddr_eq hbase hq11, small_regaddr_eq]
      rfl
    | tx16 q da ra w rl =>
      obtain ⟨hsm16, hq, hrl, hda, hra, _⟩ := hok
      rw [hc] at hsm16 hq
      rw [hd] at hda
      rw [if_neg (by rw [hsm16]; exact Bool.false_ne_true)]
      refine ⟨q, w, rl, hq, ?_⟩
      rw [hda, hra, large_devaddr_eq hbase (by omega)]
      rfl

/-- Witness for `c7_addressing_mode`: small configuration `⟨16, 8⟩` at
pointer 5, reading 4 bytes and writing 3 through `okT`. -/
theorem c7_addressing_mode_witness :
    NewEEPROM24 (.addr7 0x50) ⟨16, 8, 0⟩ =
      .ok ⟨⟨16, 8, 0⟩, 0, .addr7 0x50⟩ ∧
    ((⟨16, 8, 0⟩ : EEPROM24Config).hasSmallAddresses = true ↔
      (⟨16, 8, 0⟩ : EEPROM24Config).Size ≤ 2 ^ 11) ∧
    (∀ ev ∈ (ee24Read okT () ⟨⟨16, 8, 0⟩, 5, .addr7 0x50⟩ 4).trace ++
        (ee24Write okT () ⟨⟨16, 8, 0⟩, 5, .addr7 0x50⟩ [1, 2, 3]).trace,
      if (⟨16, 8, 0⟩ : EEPROM24Config).hasSmallAddresses = true then
        ∃ q w rl, q < (⟨16, 8, 0⟩ : EEPROM24Config).Size ∧
          ev = .tx8 q (.addr7 ((0x50 &&& 0x7f) + (q >>> 8))) (q % 256) w rl
      else
        ∃ q w rl, q < (⟨16, 8, 0⟩ : EEPROM24Config).Size ∧
          ev = .tx16 q (.addr7 ((0x50 &&& 0x7f) + (q >>> 16))) (q % 65536) w rl) :=
  ⟨by decide,
    c7_addressing_mode okT () () 0x50 ⟨16, 8, 0⟩
      ⟨⟨16, 8, 0⟩, 0, .addr7 0x50⟩ ⟨⟨16, 8, 0⟩, 5, .addr7 0x50⟩ [1, 2, 3] 4
      (by decide) rfl rfl (by decide)⟩

/-! ## Progress of `Read` and `Write` -/

/-- What a `Read` does, on a fault-free transactor: it transfers
`min n (Size - p)` bytes, advances the pointer by that amount, and
reports `io.EOF` exactly when the transfer is empty. -/
theorem ee24Read_ff (T : Transactor σ) (hff : FaultFreeT T) (s : σ)
    (e : Ee24) (n : Nat) (hp : e.p ≤ e.conf.Size) :
    (ee24Read T s e n).n = min n (e.conf.Size - e.p) ∧
    (ee24Read T s e n).ee.p = e.p + min n (e.conf.Size - e.p) ∧
    (ee24Read T s e n).err =
      (if min n (e.conf.Size - e.p) = 0 then some .eof else none) ∧
    (ee24Read T s e n).ee.conf = e.conf ∧
    (ee24Read T s e n).ee.devaddr = e.devaddr := by
  have hnr8 : ∀ s1 da ra w rl, (T.t8 s1 da ra w rl).nr = rl :=
    fun s1 da ra w rl => (hff.1 s1 da ra w rl).2.2
  have hnr16 : ∀ s1 da ra w rl, (T.t16 s1 da ra w rl).nr = rl :=
    fun s1 da ra w rl => (hff.2 s1 da ra w rl).2.2
  have herr8 : ∀ s1 da ra w rl, (T.t8 s1 da ra w rl).err = none :=
    fun s1 da ra w rl => (hff.1 s1 da ra w rl).1
  have herr16 : ∀ s1 da ra w rl, (T.t16 s1 da ra w rl).err = none :=
    fun s1 da ra w rl => (hff.2 s1 da ra w rl).1
  rw [ee24Read]
  by_cases hbig : e.p + n > e.conf.Size
  · rw [if_pos hbig]
    have hmin : min n (e.conf.Size - e.p) = e.conf.Size - e.p := by omega
    by_cases hz : e.conf.Size - e.p = 0
    · rw [if_pos hz]
      simp [hmin, hz]
    · rw [if_neg hz]
      cases hsm : e.conf.hasSmallAddresses with
      | true =>
        rw [if_pos rfl]
        simp [hnr8, herr8, hmin, hz]
      | false =>
        rw [if_neg Bool.false_ne_true]
        simp [hnr16, herr16, hmin, hz]
  · rw [if_neg hbig]
    have hmin : min n (e.conf.Size - e.p) = n := by omega
    by_cases hz : e.p + n - e.p = 0
    · rw [if_pos hz]
      have hn0 : n = 0 := by omega
      simp [hmin, hn0]
    · rw [if_neg hz]
      cases hsm : e.conf.hasSmallAddresses with
      | true =>
        rw [if_pos rfl]
        have heq : e.p + n - e.p = n := by omega
        simp [hnr8, herr8, hmin, heq]
        rw [if_neg (by omega : ¬ n = 0)]
      | false =>
        rw [if_neg Bool.false_ne_true]
        have heq : e.p + n - e.p = n := by omega
        simp [hnr16, herr16, hmin, heq]
        rw [if_neg (by omega : ¬ n = 0)]

/-- What the `Write` loop does, on a fault-free transactor over a valid
configuration: it consumes everything if it fits before `Size`,
otherwise it consumes exactly up to `Size` and reports `io.EOF`. -/
theorem ee24WriteLoop_ff (T : Transactor σ) (hff : FaultFreeT T) (k : Nat) :
    ∀ (fuel origsize : Nat) (s : σ) (e : Ee24) (b : List Nat),
      e.conf.PageSize = 2 ^ k → e.conf.PageSize ∣ e.conf.Size →
      e.p ≤ e.conf.Size → b.length < fuel → b.length ≤ origsize →
      ((e.p + b.length ≤ e.conf.Size →
        (ee24WriteLoop T origsize fuel s e b).err = none ∧
        (ee24WriteLoop T origsize fuel s e b).n = origsize ∧
        (ee24WriteLoop T origsize fuel s e b).ee.p = e.p + b.length) ∧
       (e.conf.Size < e.p + b.length →
        (ee24WriteLoop T origsize fuel s e b).err = some .eof ∧
        (ee24WriteLoop T origsize fuel s e b).n =
          origsize - b.length + (e.conf.Size - e.p) ∧
        (ee24WriteLoop T origsize fuel s e b).ee.p = e.conf.Size)) := by
  intro fuel
  induction fuel with
  | zero =>
    intro origsize s e b hk hd hp hfuel hos
    omega
  | succ fuel ih =>
    intro origsize s e b hk hd hp hfuel hos
    have herr8 : ∀ s1 da ra w rl, (T.t8 s1 da ra w rl).err = none :=
      fun s1 da ra w rl => (hff.1 s1 da ra w rl).1
    have herr16 : ∀ s1 da ra w rl, (T.t16 s1 da ra w rl).err = none :=
      fun s1 da ra w rl => (hff.2 s1 da ra w rl).1
    have hpg0 : 0 < e.conf.PageSize := by
      rw [hk]
      exact pow_pos (by norm_num) k
    have hmodlt : e.p % e.conf.PageSize < e.conf.PageSize := Nat.mod_lt _ hpg0
    simp only [ee24WriteLoop]
    by_cases hcond : 0 < b.length ∧ e.p < e.conf.Size
    · rw [if_pos hcond]
      have haip := and_mask_eq_mod k hk e.p
      rw [haip]
      have hstep := page_step_le hpg0 hd hcond.2
      -- the chunk size and the facts the recursive call needs
      have main : ∀ (s1 : σ) nip, 0 < nip → nip ≤ b.length →
          e.p + nip ≤ e.conf.Size →
          ((e.p + b.length ≤ e.conf.Size →
            (ee24WriteLoop T origsize fuel s1
              { e with p := e.p + nip } (b.drop nip)).err = none ∧
            (ee24WriteLoop T origsize fuel s1
              { e with p := e.p + nip } (b.drop nip)).n = origsize ∧
            (ee24WriteLoop T origsize fuel s1
              { e with p := e.p + nip } (b.drop nip)).ee.p = e.p + b.length) ∧
          (e.conf.Size < e.p + b.length →
            (ee24WriteLoop T origsize fuel s1
              { e with p := e.p + nip } (b.drop nip)).err = some .eof ∧
            (ee24WriteLoop T origsize fuel s1
              { e with p := e.p + nip } (b.drop nip)).n =
              origsize - b.length + (e.conf.Size - e.p) ∧
            (ee24WriteLoop T origsize fuel s1
              { e with p := e.p + nip } (b.drop nip)).ee.p = e.conf.Size)) := by
        intro s1 nip hnip0 hniple hfit
        obtain ⟨hin, hover⟩ := ih origsize s1 { e with p := e.p + nip }
          (b.drop nip) (by exact hk) (by exact hd) (by simpa using hfit)
          (by simp [List.length_drop]; omega) (by simp [List.length_drop]; omega)
        constructor
        · intro hall
          obtain ⟨h1, h2, h3⟩ := hin (by simp [List.length_drop]; omega)
          refine ⟨h1, h2, ?_⟩
          rw [h3]
          simp [List.length_drop]
          omega
        · intro hov
          obtain ⟨h1, h2, h3⟩ := hover (by simp [List.length_drop]; omega)
          refine ⟨h1, ?_, h3⟩
          rw [h2]
          simp [List.length_drop]
          omega
      set nip1 := (if b.length > e.conf.PageSize - e.p % e.conf.PageSize then
        e.conf.PageSize - e.p % e.conf.PageSize else b.length) with hnipdef
      have hf1 : 0 < nip1 := by
        by_cases hgt : b.length > e.conf.PageSize - e.p % e.conf.PageSize
        · rw [hnipdef, if_pos hgt]
          omega
        · rw [hnipdef, if_neg hgt]
          omega
      have hf2 : nip1 ≤ b.length := by
        by_cases hgt : b.length > e.conf.PageSize - e.p % e.conf.PageSize
        · rw [hnipdef, if_pos hgt]
          omega
        · rw [hnipdef, if_neg hgt]
      have hf3 : e.p + nip1 ≤ e.conf.Size := by
        by_cases hgt : b.length > e.conf.PageSize - e.p % e.conf.PageSize
        · rw [hnipdef, if_pos hgt]
          omega
        · rw [hnipdef, if_neg hgt]
          omega
      cases hsm : e.conf.hasSmallAddresses with
      | true =>
        rw [if_pos rfl]
        simp only [herr8]
        exact main _ nip1 hf1 hf2 hf3
      | false =>
        rw [if_neg Bool.false_ne_true]
        simp only [herr16]
        exact main _ nip1 hf1 hf2 hf3
    · rw [if_neg hcond]
      by_cases h1 : e.p = e.conf.Size ∧ 0 < b.length
      · rw [if_pos h1]
        constructor
        · intro hfit
          exact absurd hfit (by omega)
        · intro hover
          refine ⟨rfl, ?_, ?_⟩
          · show origsize - b.length = origsize - b.length + (e.conf.Size - e.p)
            omega
          · show e.p = e.conf.Size
            omega
      · rw [if_neg h1]
        have hb0 : b.length = 0 := by
          rcases Nat.eq_zero_or_pos b.length with h | h
          · exact h
          · exfalso
            have hpS : ¬ e.p < e.conf.Size := fun hlt => hcond ⟨h, hlt⟩
            exact h1 ⟨by omega, h⟩
        rw [if_neg (by omega : ¬ e.p > e.conf.Size)]
        constructor
        · intro hfit
          refine ⟨rfl, rfl, ?_⟩
          show e.p = e.p + b.length
          omega
        · intro hover
          exact absurd hover (by omega)


/-- The `Write` loop keeps the file pointer at or below the array size,
and never itself reaches the fatal beyond-the-end branch, as long as the
transactor does not return that driver-internal outcome. -/
theorem ee24WriteLoop_p_le (T : Transactor σ) (k : Nat)
    (h8 : ∀ s1 da ra w rl, (T.t8 s1 da ra w rl).err ≠ some .eePanicBeyondEnd)
    (h16 : ∀ s1 da ra w rl, (T.t16 s1 da ra w rl).err ≠ some .eePanicBeyondEnd) :
    ∀ (fuel origsize : Nat) (s : σ) (e : Ee24) (b : List Nat),
      e.conf.PageSize = 2 ^ k → e.conf.PageSize ∣ e.conf.Size →
      e.p ≤ e.conf.Size →
      (ee24WriteLoop T origsize fuel s e b).ee.p ≤ e.conf.Size ∧
      (ee24WriteLoop T origsize fuel s e b).err ≠ some .eePanicBeyondEnd := by
  intro fuel
  induction fuel with
  | zero =>
    intro origsize s e b hk hd hp
    rw [ee24WriteLoop]
    exact ⟨hp, by simp⟩
  | succ fuel ih =>
    intro origsize s e b hk hd hp
    have hpg0 : 0 < e.conf.PageSize := by
      rw [hk]
      exact pow_pos (by norm_num) k
    simp only [ee24WriteLoop]
    by_cases hcond : 0 < b.length ∧ e.p < e.conf.Size
    · rw [if_pos hcond]
      have haip := and_mask_eq_mod k hk e.p
      rw [haip]
      have hstep := page_step_le hpg0 hd hcond.2
      set nip1 := (if b.length > e.conf.PageSize - e.p % e.conf.PageSize then
        e.conf.PageSize - e.p % e.conf.PageSize else b.length) with hnipdef
      have hf3 : e.p + nip1 ≤ e.conf.Size := by
        by_cases hgt : b.length > e.conf.PageSize - e.p % e.conf.PageSize
        · rw [hnipdef, if_pos hgt]
          omega
        · rw [hnipdef, if_neg hgt]
          omega
      cases hsm : e.conf.hasSmallAddresses with
      | true =>
        rw [if_pos rfl]
        split
        · rename_i er heq
          refine ⟨hp, ?_⟩
          intro hcontra
          simp only [] at hcontra
          rw [hcontra] at heq
          exact h8 _ _ _ _ _ heq
        · obtain ⟨ha, hb2⟩ := ih origsize _ { e with p := e.p + nip1 }
            (b.drop nip1) (by exact hk) (by exact hd) (by exact hf3)
          exact ⟨ha, hb2⟩
      | false =>
        rw [if_neg Bool.false_ne_true]
        split
        · rename_i er heq
          refine ⟨hp, ?_⟩
          intro hcontra
          simp only [] at hcontra
          rw [hcontra] at heq
          exact h16 _ _ _ _ _ heq
        · obtain ⟨ha, hb2⟩ := ih origsize _ { e with p := e.p + nip1 }
            (b.drop nip1) (by exact hk) (by exact hd) (by exact hf3)
          exact ⟨ha, hb2⟩
    · rw [if_neg hcond]
      by_cases h1 : e.p = e.conf.Size ∧ 0 < b.length
      · rw [if_pos h1]
        exact ⟨hp, by simp⟩
      · rw [if_neg h1]
        rw [if_neg (by omega : ¬ e.p > e.conf.Size)]
        exact ⟨hp, by simp⟩

/-- A `Read` through a contract-abiding transactor keeps the pointer at
or below the array size. -/
theorem ee24Read_p_le (T : Transactor σ) (hT : BoundedT T) (s : σ)
    (e : Ee24) (n : Nat) (hp : e.p ≤ e.conf.Size) :
    (ee24Read T s e n).ee.p ≤ e.conf.Size := by
  rw [ee24Read]
  by_cases hbig : e.p + n > e.conf.Size
  · rw [if_pos hbig]
    by_cases hz : e.conf.Size - e.p = 0
    · rw [if_pos hz]
      exact hp
    · rw [if_neg hz]
      cases hsm : e.conf.hasSmallAddresses with
      | true =>
        rw [if_pos rfl]
        have hb := (hT.1 s (Addr.addr7 (u8 (u16 (e.devaddr.GetBaseAddr +
          u16 (e.p >>> 8))))) (u8 (e.p &&& 0xff)) [] (e.conf.Size - e.p)).1
        simp only []
        omega
      | false =>
        rw [if_neg Bool.false_ne_true]
        have hb := (hT.2 s (Addr.addr7 (u8 (u16 (e.devaddr.GetBaseAddr +
          u16 (e.p >>> 16))))) (u16 e.p) [] (e.conf.Size - e.p)).1
        simp only []
        omega
  · rw [if_neg hbig]
    by_cases hz : e.p + n - e.p = 0
    · rw [if_pos hz]
      exact hp
    · rw [if_neg hz]
      cases hsm : e.conf.hasSmallAddresses with
      | true =>
        rw [if_pos rfl]
        have hb := (hT.1 s (Addr.addr7 (u8 (u16 (e.devaddr.GetBaseAddr +
          u16 (e.p >>> 8))))) (u8 (e.p &&& 0xff)) [] (e.p + n - e.p)).1
        simp only []
        omega
      | false =>
        rw [if_neg Bool.false_ne_true]
        have hb := (hT.2 s (Addr.addr7 (u8 (u16 (e.devaddr.GetBaseAddr +
          u16 (e.p >>> 16))))) (u16 e.p) [] (e.p + n - e.p)).1
        simp only []
        omega

/-- `seekTo` keeps the pointer at or below the array size. -/
theorem seekTo_p_le (e : Ee24) (P nP : Int) (hp : e.p ≤ e.conf.Size) :
    (seekTo e P nP).1.p ≤ e.conf.Size := by
  rw [seekTo]
  split_ifs with h1 h2
  · exact hp
  · exact hp
  · show nP.toNat ≤ e.conf.Size
    omega

theorem ee24Seek_zero (e : Ee24) (off : Int) :
    ee24Seek e off 0 = seekTo e e.p off := rfl

theorem ee24Seek_one (e : Ee24) (off : Int) :
    ee24Seek e off 1 = seekTo e e.p (e.p + off) := rfl

theorem ee24Seek_two (e : Ee24) (off : Int) :
    ee24Seek e off 2 = seekTo e e.p ((e.conf.Size : Int) + off) := rfl

theorem ee24Seek_other (e : Ee24) (off : Int) (wh : Nat) :
    ee24Seek e off (wh + 3) = (e, (e.p : Int), some .seekInvalidWhence) := rfl

/-- Fault-free and contract facts for the trivial transactor `okT`. -/
theorem okT_ff : FaultFreeT okT :=
  ⟨fun _ _ _ _ _ => ⟨rfl, rfl, rfl⟩, fun _ _ _ _ _ => ⟨rfl, rfl, rfl⟩⟩

theorem okT_bounded : BoundedT okT :=
  ⟨fun _ _ _ _ rl => ⟨Nat.le_refl rl, by simp [okT]⟩,
   fun _ _ _ _ rl => ⟨Nat.le_refl rl, by simp [okT]⟩⟩

/-- **C6.**  For every valid configuration of size `S ≥ 5` on a
fault-free bus: with the pointer at `S-3`, a `Read` into a 16-byte buffer
returns exactly 3 bytes and a second `Read` returns 0 bytes with the
end-of-stream outcome; with the pointer at `S-5`, a `Write` of a 16-byte
buffer writes exactly 5 bytes, reports end-of-stream and leaves the
pointer at exactly `S`. -/
theorem c6_eos_boundary (T : Transactor σ) (s1 s2 : σ) (devaddr : Addr)
    (conf : EEPROM24Config) (e0 : Ee24) (b : List Nat)
    (hcons : NewEEPROM24 devaddr conf = .ok e0) (hff : FaultFreeT T)
    (hS5 : 5 ≤ conf.Size) (hb : b.length = 16) :
    (ee24Read T s1 { e0 with p := conf.Size - 3 } 16).n = 3 ∧
    (ee24Read T s1 { e0 with p := conf.Size - 3 } 16).ee.p = conf.Size ∧
    (ee24Read T (ee24Read T s1 { e0 with p := conf.Size - 3 } 16).s
      (ee24Read T s1 { e0 with p := conf.Size - 3 } 16).ee 16).n = 0 ∧
    (ee24Read T (ee24Read T s1 { e0 with p := conf.Size - 3 } 16).s
      (ee24Read T s1 { e0 with p := conf.Size - 3 } 16).ee 16).err =
      some .eof ∧
    (ee24Write T s2 { e0 with p := conf.Size - 5 } b).n = 5 ∧
    (ee24Write T s2 { e0 with p := conf.Size - 5 } b).err = some .eof ∧
    (ee24Write T s2 { e0 with p := conf.Size - 5 } b).ee.p = conf.Size := by
  obtain ⟨hle, hmax, hS, hP, h7, he0⟩ := NewEEPROM24_ok hcons
  obtain ⟨k, hk⟩ := ispow2_two_pow _ hP
  have hdvd := pagesize_dvd_size hS hP hle
  subst he0
  obtain ⟨hn1, hp1, herr1, hc1, hd1⟩ := ee24Read_ff T hff s1
    ⟨conf, conf.Size - 3, devaddr⟩ 16 (by show conf.Size - 3 ≤ conf.Size; omega)
  have hmin1 : min 16 (conf.Size - (conf.Size - 3)) = 3 := by omega
  rw [hmin1] at hn1 hp1
  have hp1S : (ee24Read T s1 ⟨conf, conf.Size - 3, devaddr⟩ 16).ee.p =
      conf.Size := by
    rw [hp1]
    show conf.Size - 3 + 3 = conf.Size
    omega
  have hC : (ee24Read T s1 ⟨conf, conf.Size - 3, devaddr⟩ 16).ee.conf.Size =
      conf.Size := by rw [hc1]
  refine ⟨hn1, hp1S, ?_, ?_, ?_, ?_, ?_⟩
  · obtain ⟨hn2, _, _, _, _⟩ := ee24Read_ff T hff _
      (ee24Read T s1 ⟨conf, conf.Size - 3, devaddr⟩ 16).ee 16
      (by rw [hp1S, hC])
    rw [hn2, hC, hp1S]
    omega
  · obtain ⟨_, _, herr2, _, _⟩ := ee24Read_ff T hff _
      (ee24Read T s1 ⟨conf, conf.Size - 3, devaddr⟩ 16).ee 16
      (by rw [hp1S, hC])
    rw [herr2, hC, hp1S]
    rw [if_pos (by omega)]
  · obtain ⟨_, hover⟩ := ee24WriteLoop_ff T hff k (b.length + 1) b.length s2
      ⟨conf, conf.Size - 5, devaddr⟩ b hk hdvd
      (by show conf.Size - 5 ≤ conf.Size; omega) (by omega) (le_refl _)
    obtain ⟨_, hn, _⟩ := hover (by show conf.Size < conf.Size - 5 + b.length; omega)
    rw [show ee24Write T s2 ⟨conf, conf.Size - 5, devaddr⟩ b =
      ee24WriteLoop T b.length (b.length + 1) s2
        ⟨conf, conf.Size - 5, devaddr⟩ b from rfl, hn]
    show b.length - b.length + (conf.Size - (conf.Size - 5)) = 5
    omega
  · obtain ⟨_, hover⟩ := ee24WriteLoop_ff T hff k (b.length + 1) b.length s2
      ⟨conf, conf.Size - 5, devaddr⟩ b hk hdvd
      (by show conf.Size - 5 ≤ conf.Size; omega) (by omega) (le_refl _)
    obtain ⟨herr, _, _⟩ := hover (by show conf.Size < conf.Size - 5 + b.length; omega)
    exact herr
  · obtain ⟨_, hover⟩ := ee24WriteLoop_ff T hff k (b.length + 1) b.length s2
      ⟨conf, conf.Size - 5, devaddr⟩ b hk hdvd
      (by show conf.Size - 5 ≤ conf.Size; omega) (by omega) (le_refl _)
    obtain ⟨_, _, hpfin⟩ := hover (by show conf.Size < conf.Size - 5 + b.length; omega)
    exact hpfin

/-- Witness for `c6_eos_boundary`: configuration `⟨8, 4⟩` with `okT`. -/
theorem c6_eos_boundary_witness :
    NewEEPROM24 (.addr7 0x50) ⟨8, 4, 0⟩ = .ok ⟨⟨8, 4, 0⟩, 0, .addr7 0x50⟩ ∧
    FaultFreeT okT ∧ 5 ≤ (8 : Nat) ∧ (List.replicate 16 0).length = 16 ∧
    ((ee24Read okT () { (⟨⟨8, 4, 0⟩, 0, .addr7 0x50⟩ : Ee24) with p := 8 - 3 }
      16).n = 3 ∧
    (ee24Read okT () { (⟨⟨8, 4, 0⟩, 0, .addr7 0x50⟩ : Ee24) with p := 8 - 3 }
      16).ee.p = 8) := by
  have h := c6_eos_boundary okT () () (.addr7 0x50) ⟨8, 4, 0⟩
    ⟨⟨8, 4, 0⟩, 0, .addr7 0x50⟩ (List.replicate 16 0) (by decide) okT_ff
    (by decide) (by decide)
  exact ⟨by decide, okT_ff, by decide, by decide, h.1, h.2.1⟩

/-- **C9.**  For every driver accepted by construction (powers of two,
page ≤ size, size ≤ 2^19, 7-bit address) in any state with
`p ≤ size`, the invariant `0 ≤ filePointer ≤ size` is preserved by
`Seek`, `Read` and `Write` (for any contract-abiding transactor), and
`Write`'s fatal abort branch for a pointer beyond the size is
unreachable. -/
theorem c9_pointer_invariant (T : Transactor σ) (sR sW : σ)
    (devaddr : Addr) (conf : EEPROM24Config) (e0 e : Ee24) (b : List Nat)
    (n : Nat) (off : Int) (wh : Nat)
    (hcons : NewEEPROM24 devaddr conf = .ok e0) (hc : e.conf = conf)
    (hp : e.p ≤ conf.Size) (hT : BoundedT T) :
    (ee24Seek e off wh).1.p ≤ conf.Size ∧
    (ee24Read T sR e n).ee.p ≤ conf.Size ∧
    (ee24Write T sW e b).ee.p ≤ conf.Size ∧
    (ee24Write T sW e b).err ≠ some .eePanicBeyondEnd := by
  subst hc
  obtain ⟨hle, hmax, hS, hP, h7, he0⟩ := NewEEPROM24_ok hcons
  obtain ⟨k, hk⟩ := ispow2_two_pow _ hP
  have hdvd := pagesize_dvd_size hS hP hle
  have h8 : ∀ s1 da ra w rl, (T.t8 s1 da ra w rl).err ≠ some .eePanicBeyondEnd :=
    fun s1 da ra w rl => (hT.1 s1 da ra w rl).2
  have h16 : ∀ s1 da ra w rl, (T.t16 s1 da ra w rl).err ≠ some .eePanicBeyondEnd :=
    fun s1 da ra w rl => (hT.2 s1 da ra w rl).2
  obtain ⟨hwp, hwe⟩ := ee24WriteLoop_p_le T k h8 h16 (b.length + 1) b.length
    sW e b hk hdvd hp
  refine ⟨?_, ee24Read_p_le T hT sR e n hp, hwp, hwe⟩
  rcases wh with _ | _ | _ | wh
  · rw [ee24Seek_zero]
    exact seekTo_p_le e _ _ hp
  · rw [ee24Seek_one]
    exact seekTo_p_le e _ _ hp
  · rw [ee24Seek_two]
    exact seekTo_p_le e _ _ hp
  · rw [ee24Seek_other]
    exact hp

/-- Witness for `c9_pointer_invariant` at configuration `⟨8, 4⟩`,
pointer 3, with `okT`. -/
theorem c9_pointer_invariant_witness :
    NewEEPROM24 (.addr7 0x50) ⟨8, 4, 0⟩ = .ok ⟨⟨8, 4, 0⟩, 0, .addr7 0x50⟩ ∧
    (⟨⟨8, 4, 0⟩, 3, .addr7 0x50⟩ : Ee24).p ≤ 8 ∧ BoundedT okT ∧
    ((ee24Seek ⟨⟨8, 4, 0⟩, 3, .addr7 0x50⟩ 2 0).1.p ≤ 8 ∧
    (ee24Read okT () ⟨⟨8, 4, 0⟩, 3, .addr7 0x50⟩ 4).ee.p ≤ 8 ∧
    (ee24Write okT () ⟨⟨8, 4, 0⟩, 3, .addr7 0x50⟩ [1, 2]).ee.p ≤ 8 ∧
    (ee24Write okT () ⟨⟨8, 4, 0⟩, 3, .addr7 0x50⟩ [1, 2]).err ≠
      some .eePanicBeyondEnd) :=
  ⟨by decide, by decide, okT_bounded,
    c9_pointer_invariant okT () () (.addr7 0x50) ⟨8, 4, 0⟩
      ⟨⟨8, 4, 0⟩, 0, .addr7 0x50⟩ ⟨⟨8, 4, 0⟩, 3, .addr7 0x50⟩ [1, 2] 4 2 0
      (by decide) rfl (by decide) okT_bounded⟩

/-- **C10.**  For every driver state within the data-model invariant
`p ≤ size`, a `Read` with a zero-length buffer returns zero bytes with
the end-of-stream outcome and leaves the driver state (in particular the
file pointer) unchanged — even when the pointer is strictly below the
size: end-of-stream on `Read` signals an empty transfer, not
pointer-at-end. -/
theorem c10_zero_length_read (T : Transactor σ) (s : σ) (e : Ee24)
    (hp : e.p ≤ e.conf.Size) :
    ee24Read T s e 0 = ⟨s, e, 0, [], [], some .eof⟩ := by
  rw [ee24Read]
  rw [if_neg (by omega : ¬ e.p + 0 > e.conf.Size)]
  rw [if_pos (by omega : e.p + 0 - e.p = 0)]

/-- Witness for `c10_zero_length_read` at a pointer strictly below the
size. -/
theorem c10_zero_length_read_witness :
    (⟨⟨8, 4, 0⟩, 3, .addr7 0x50⟩ : Ee24).p ≤ 8 ∧
    ee24Read okT () ⟨⟨8, 4, 0⟩, 3, .addr7 0x50⟩ 0 =
      ⟨(), ⟨⟨8, 4, 0⟩, 3, .addr7 0x50⟩, 0, [], [], some .eof⟩ :=
  ⟨by decide, c10_zero_length_read okT () ⟨⟨8, 4, 0⟩, 3, .addr7 0x50⟩
    (by decide)⟩


/-! ## Round-trip through the PVT24 device model -/

theorem ee24Read_zero (T : Transactor σ) (s : σ) (e : Ee24)
    (hp : e.p ≤ e.conf.Size) :
    ee24Read T s e 0 = ⟨s, e, 0, [], [], some .eof⟩ := by
  rw [ee24Read]
  rw [if_neg (by omega : ¬ e.p + 0 > e.conf.Size)]
  rw [if_pos (by omega : e.p + 0 - e.p = 0)]

theorem and_compl64 {m k : Nat} (hk : k ≤ 64) (hm : m < 2 ^ 64) :
    m &&& compl64 (2 ^ k - 1) = 2 ^ k * (m / 2 ^ k) := by
  apply Nat.eq_of_testBit_eq
  intro i
  rw [compl64, Nat.testBit_and, Nat.testBit_xor, Nat.testBit_two_pow_sub_one,
    Nat.testBit_two_pow_sub_one, Nat.testBit_mul_pow_two,
    ← Nat.shiftRight_eq_div_pow, Nat.testBit_shiftRight]
  by_cases h1 : i < k
  · have h2 : i < 64 := by omega
    simp [h1, h2]
  · by_cases h2 : i < 64
    · have h3 : k + (i - k) = i := by omega
      simp [h1, h2, h3, Nat.not_lt.mp h1]
    · have hge : 2 ^ 64 ≤ 2 ^ i := Nat.pow_le_pow_right (by norm_num) (by omega)
      have h4 : m.testBit i = false := Nat.testBit_lt_two_pow (by omega)
      have h3 : k + (i - k) = i := by omega
      simp [h1, h2, h3, h4]

theorem overlay_length (b : List Nat) : ∀ (mem : List Nat) (o : Nat),
    (overlay mem o b).length = mem.length := by
  induction b with
  | nil => intro mem o; rfl
  | cons x xs ih =>
    intro mem o
    rw [overlay, ih]
    simp

theorem overlay_getD_lt (b : List Nat) : ∀ (mem : List Nat) (o i : Nat),
    i < o → (overlay mem o b).getD i 0 = mem.getD i 0 := by
  induction b with
  | nil => intro mem o i _; rfl
  | cons x xs ih =>
    intro mem o i hi
    rw [overlay, ih _ _ _ (by omega)]
    rw [List.getD_eq_getElem?_getD, List.getElem?_set_ne (by omega),
      ← List.getD_eq_getElem?_getD]

theorem overlay_getD_in (b : List Nat) : ∀ (mem : List Nat) (o i : Nat),
    i < b.length → o + b.length ≤ mem.length →
    (overlay mem o b).getD (o + i) 0 = b.getD i 0 := by
  induction b with
  | nil =>
    intro mem o i hi _
    simp at hi
  | cons x xs ih =>
    intro mem o i hi hlen
    rw [overlay]
    cases i with
    | zero =>
      rw [overlay_getD_lt xs _ _ _ (by omega : o + 0 < o + 1)]
      show (mem.set o x).getD (o + 0) 0 = x
      have h0 : o + 0 = o := rfl
      rw [h0, List.getD_eq_getElem?_getD,
        List.getElem?_set_self (by simp at hlen; omega)]
      rfl
    | succ i1 =>
      have hsh : o + (i1 + 1) = (o + 1) + i1 := by omega
      rw [hsh, ih (mem.set o x) (o + 1) i1 (by simpa using hi)
        (by simp at hlen ⊢; omega)]
      rfl

theorem overlay_append (xs ys : List Nat) : ∀ (mem : List Nat) (o : Nat),
    overlay mem o (xs ++ ys) = overlay (overlay mem o xs) (o + xs.length) ys := by
  induction xs with
  | nil => intro mem o; simp [overlay]
  | cons x xt ih =>
    intro mem o
    rw [List.cons_append, overlay, overlay, ih]
    have : o + 1 + xt.length = o + (xt.length + 1) := by omega
    rw [this]
    rfl

theorem getD_range_map (l : List Nat) :
    (List.range l.length).map (fun i => l.getD i 0) = l := by
  induction l with
  | nil => rfl
  | cons x xs ih =>
    rw [List.length_cons, List.range_succ_eq_map, List.map_cons,
      List.map_map]
    show x :: (List.range xs.length).map (fun i => (x :: xs).getD (i + 1) 0) = x :: xs
    have hmap : ∀ i, (x :: xs).getD (i + 1) 0 = xs.getD i 0 := fun i => rfl
    simp only [hmap]
    rw [ih]

theorem pvtRd_eq (mem : List Nat) : ∀ (n m : Nat), m + n ≤ mem.length →
    pvtRd mem m n = some ((List.range n).map (fun i => mem.getD (m + i) 0)) := by
  intro n
  induction n with
  | zero => intro m _; rfl
  | succ n ih =>
    intro m hm
    rw [pvtRd, if_pos (by omega), ih (m + 1) (by omega)]
    rw [List.range_succ_eq_map, List.map_cons, List.map_map]
    show some (mem.getD m 0 ::
        List.map (fun i => mem.getD (m + 1 + i) 0) (List.range n)) =
      some (mem.getD (m + 0) 0 ::
        List.map ((fun i => mem.getD (m + i) 0) ∘ Nat.succ) (List.range n))
    congr 1
    congr 1
    apply List.map_congr_left
    intro i _
    show mem.getD (m + 1 + i) 0 = mem.getD (m + (i + 1)) 0
    have h : m + 1 + i = m + (i + 1) := by omega
    rw [h]

theorem pvtWr_in_page (k q : Nat) : ∀ (wb : List Nat) (m : Nat)
    (mem : List Nat), 2 ^ k * q ≤ m → m + wb.length ≤ 2 ^ k * q + 2 ^ k →
    m + wb.length ≤ mem.length →
    pvtWr (2 ^ k) (2 ^ k * q) wb m mem =
      some (overlay mem m wb, m + wb.length) := by
  intro wb
  induction wb with
  | nil =>
    intro m mem _ _ _
    rw [pvtWr, overlay]
    simp
  | cons x xs ih =>
    intro m mem h1 h2 h3
    rw [pvtWr]
    have hpos : 0 < 2 ^ k := pow_pos (by norm_num) k
    have hq : m / 2 ^ k = q := by
      apply Nat.div_eq_of_lt_le
      · rw [Nat.mul_comm]
        exact h1
      · rw [Nat.add_mul, Nat.one_mul, Nat.mul_comm]
        simp at h2
        omega
    have hwaddr : (m &&& (2 ^ k - 1)) ||| (2 ^ k * q) = m := by
      rw [Nat.and_pow_two_sub_one_eq_mod, Nat.or_comm,
        ← Nat.mul_add_lt_is_or (Nat.mod_lt _ hpos), ← hq, Nat.div_add_mod]
    rw [hwaddr]
    rw [if_pos (by simp at h3; omega)]
    rw [ih (m + 1) (mem.set m x) (by omega) (by simp at h2 ⊢; omega)
      (by simp at h3 ⊢; omega)]
    rw [overlay]
    have : m + 1 + xs.length = m + (x :: xs).length := by simp; omega
    rw [this]


theorem mask7_eq_mod (x : Nat) : x &&& 0x7f = x % 128 := by
  have h := Nat.and_pow_two_sub_one_eq_mod x 7
  norm_num at h
  exact h

theorem mask3_eq_mod (x : Nat) : x &&& 0x07 = x % 8 := by
  have h := Nat.and_pow_two_sub_one_eq_mod x 3
  norm_num at h
  exact h

theorem mask8_eq_mod (x : Nat) : x &&& 0xff = x % 256 := by
  have h := Nat.and_pow_two_sub_one_eq_mod x 8
  norm_num at h
  exact h

/-- For a bank-aligned device base address, the memory address the PVT24
device model computes from a small-mode transaction equals the driver's
file pointer. -/
theorem pvt_memaddr_small {a p : Nat} (hal : (a &&& 0x7f) % 8 = 0)
    (hp : p < 2 ^ 11) :
    (((Addr.addr7 (u8 (u16 ((Addr.addr7 a).GetBaseAddr +
      u16 (p >>> 8))))).GetBaseAddr &&& 0x07) <<< 8) + u8 (p &&& 0xff) = p := by
  rw [mask7_eq_mod] at hal
  simp only [Addr.GetBaseAddr, u8, u16, mask7_eq_mod, mask3_eq_mod,
    mask8_eq_mod, Nat.shiftRight_eq_div_pow, Nat.shiftLeft_eq]
  norm_num
  omega

/-- For a bank-aligned device base address, the memory address the PVT24
device model computes from a large-mode transaction equals the driver's
file pointer. -/
theorem pvt_memaddr_large {a p : Nat} (hal : (a &&& 0x7f) % 8 = 0)
    (hp : p < 2 ^ 19) :
    (((Addr.addr7 (u8 (u16 ((Addr.addr7 a).GetBaseAddr +
      u16 (p >>> 16))))).GetBaseAddr &&& 0x07) <<< 16) + u16 p = p := by
  rw [mask7_eq_mod] at hal
  simp only [Addr.GetBaseAddr, u8, u16, mask7_eq_mod, mask3_eq_mod,
    Nat.shiftRight_eq_div_pow, Nat.shiftLeft_eq]
  norm_num
  omega

/-- A page-bounded write chunk through `pvtT8` at memory address `p`
stores exactly the chunk at positions `p ..`. -/
theorem pvtT8_write_eq {k pg : Nat} (hpg : pg = 2 ^ k) (hk : k ≤ 64)
    (mem : List Nat) (da : Addr) (ra : Nat) (wb : List Nat) (p : Nat)
    (hmem : ((da.GetBaseAddr &&& 0x07) <<< 8) + ra = p)
    (hchunk : wb.length ≤ pg - p % pg)
    (hrange : p + wb.length ≤ mem.length) (hm64 : p < 2 ^ 64) :
    pvtT8 pg mem da ra wb 0 = ⟨overlay mem p wb, wb.length, 0, [], none⟩ := by
  simp only [pvtT8]
  rw [hmem]
  have hsp : p &&& compl64 (pg - 1) = 2 ^ k * (p / 2 ^ k) := by
    rw [hpg]
    exact and_compl64 hk hm64
  rw [hsp, hpg, pvtRW]
  have hml : p % 2 ^ k < 2 ^ k := Nat.mod_lt _ (pow_pos (by norm_num) k)
  have hdm := Nat.div_add_mod p (2 ^ k)
  rw [hpg] at hchunk
  rw [pvtWr_in_page k (p / 2 ^ k) wb p mem
    (by rw [Nat.mul_comm]; exact Nat.div_mul_le_self p (2 ^ k))
    (by omega) hrange]
  rfl

/-- A page-bounded write chunk through `pvtT16`, as for `pvtT8`. -/
theorem pvtT16_write_eq {k pg : Nat} (hpg : pg = 2 ^ k) (hk : k ≤ 64)
    (mem : List Nat) (da : Addr) (ra : Nat) (wb : List Nat) (p : Nat)
    (hmem : ((da.GetBaseAddr &&& 0x07) <<< 16) + ra = p)
    (hchunk : wb.length ≤ pg - p % pg)
    (hrange : p + wb.length ≤ mem.length) (hm64 : p < 2 ^ 64) :
    pvtT16 pg mem da ra wb 0 = ⟨overlay mem p wb, wb.length, 0, [], none⟩ := by
  simp only [pvtT16]
  rw [hmem]
  have hsp : p &&& compl64 (pg - 1) = 2 ^ k * (p / 2 ^ k) := by
    rw [hpg]
    exact and_compl64 hk hm64
  rw [hsp, hpg, pvtRW]
  have hml : p % 2 ^ k < 2 ^ k := Nat.mod_lt _ (pow_pos (by norm_num) k)
  have hdm := Nat.div_add_mod p (2 ^ k)
  rw [hpg] at hchunk
  rw [pvtWr_in_page k (p / 2 ^ k) wb p mem
    (by rw [Nat.mul_comm]; exact Nat.div_mul_le_self p (2 ^ k))
    (by omega) hrange]
  rfl

/-- A read through `pvtT8` at memory address `p` returns the memory
contents at positions `p ..`. -/
theorem pvtT8_read_eq (pg : Nat) (mem : List Nat) (da : Addr) (ra : Nat)
    (rl p : Nat) (hmem : ((da.GetBaseAddr &&& 0x07) <<< 8) + ra = p)
    (hrange : p + rl ≤ mem.length) :
    pvtT8 pg mem da ra [] rl =
      ⟨mem, 0, rl, (List.range rl).map (fun i => mem.getD (p + i) 0), none⟩ := by
  simp only [pvtT8]
  rw [hmem, pvtRW, pvtWr]
  simp only []
  rw [pvtRd_eq mem rl p hrange]
  rfl

/-- A read through `pvtT16`, as for `pvtT8`. -/
theorem pvtT16_read_eq (pg : Nat) (mem : List Nat) (da : Addr) (ra : Nat)
    (rl p : Nat) (hmem : ((da.GetBaseAddr &&& 0x07) <<< 16) + ra = p)
    (hrange : p + rl ≤ mem.length) :
    pvtT16 pg mem da ra [] rl =
      ⟨mem, 0, rl, (List.range rl).map (fun i => mem.getD (p + i) 0), none⟩ := by
  simp only [pvtT16]
  rw [hmem, pvtRW, pvtWr]
  simp only []
  rw [pvtRd_eq mem rl p hrange]
  rfl


theorem hasSmallAddresses_iff (c : EEPROM24Config) :
    c.hasSmallAddresses = true ↔ c.Size ≤ 2 ^ 11 := by
  by_cases hsz : c.Size ≤ 1 <<< 11
  · simp [EEPROM24Config.hasSmallAddresses, hsz]
  · simp [EEPROM24Config.hasSmallAddresses, hsz]

/-- The `Write` loop against the PVT24 device model, for a bank-aligned
base address: a write that fits before the end of the array succeeds and
stores exactly its bytes at positions `p ..` of the device memory. -/
theorem ee24WriteLoop_pvt (k a : Nat) (hal : (a &&& 0x7f) % 8 = 0) :
    ∀ (fuel origsize : Nat) (mem : List Nat) (e : Ee24) (b : List Nat),
      e.conf.PageSize = 2 ^ k → e.conf.PageSize ∣ e.conf.Size →
      e.conf.Size ≤ 2 ^ 19 → e.devaddr = .addr7 a →
      mem.length = e.conf.Size → e.p + b.length ≤ e.conf.Size →
      b.length < fuel → b.length ≤ origsize →
      (ee24WriteLoop (pvtT e.conf.PageSize) origsize fuel mem e b).err = none ∧
      (ee24WriteLoop (pvtT e.conf.PageSize) origsize fuel mem e b).n = origsize ∧
      (ee24WriteLoop (pvtT e.conf.PageSize) origsize fuel mem e b).ee.p =
        e.p + b.length ∧
      (ee24WriteLoop (pvtT e.conf.PageSize) origsize fuel mem e b).ee.conf =
        e.conf ∧
      (ee24WriteLoop (pvtT e.conf.PageSize) origsize fuel mem e b).ee.devaddr =
        e.devaddr ∧
      (ee24WriteLoop (pvtT e.conf.PageSize) origsize fuel mem e b).s =
        overlay mem e.p b := by
  intro fuel
  induction fuel with
  | zero =>
    intro origsize mem e b hk hdvd h19 hda hmem hfit hfuel hos
    omega
  | succ fuel ih =>
    intro origsize mem e b hk hdvd h19 hda hmem hfit hfuel hos
    simp only [ee24WriteLoop]
    by_cases hcond : 0 < b.length ∧ e.p < e.conf.Size
    · rw [if_pos hcond]
      have hpg0 : 0 < e.conf.PageSize := by
        rw [hk]
        exact pow_pos (by norm_num) k
      have hpgle : e.conf.PageSize ≤ e.conf.Size := Nat.le_of_dvd (by omega) hdvd
      have h2k19 : 2 ^ k ≤ 2 ^ 19 := by
        rw [← hk]
        omega
      have hk19 : k ≤ 19 := (Nat.pow_le_pow_iff_right (by norm_num)).mp h2k19
      have hm64 : e.p < 2 ^ 64 := by
        have h6 : (2 : Nat) ^ 19 < 2 ^ 64 := by norm_num
        omega
      have haip := and_mask_eq_mod k hk e.p
      rw [haip]
      have hstep := page_step_le hpg0 hdvd hcond.2
      have hmodlt : e.p % e.conf.PageSize < e.conf.PageSize :=
        Nat.mod_lt _ hpg0
      set nip1 := (if b.length > e.conf.PageSize - e.p % e.conf.PageSize then
        e.conf.PageSize - e.p % e.conf.PageSize else b.length) with hnipdef
      have hf1 : 0 < nip1 := by
        by_cases hgt : b.length > e.conf.PageSize - e.p % e.conf.PageSize
        · rw [hnipdef, if_pos hgt]
          omega
        · rw [hnipdef, if_neg hgt]
          omega
      have hf2 : nip1 ≤ b.length := by
        by_cases hgt : b.length > e.conf.PageSize - e.p % e.conf.PageSize
        · rw [hnipdef, if_pos hgt]
          omega
        · rw [hnipdef, if_neg hgt]
      have hf4 : nip1 ≤ e.conf.PageSize - e.p % e.conf.PageSize := by
        by_cases hgt : b.length > e.conf.PageSize - e.p % e.conf.PageSize
        · rw [hnipdef, if_pos hgt]
        · rw [hnipdef, if_neg hgt]
          omega
      have htl : (b.take nip1).length = nip1 := by
        rw [List.length_take]
        omega
      have hchunk : (b.take nip1).length ≤
          e.conf.PageSize - e.p % e.conf.PageSize := by
        rw [htl]
        exact hf4
      have hrange : e.p + (b.take nip1).length ≤ mem.length := by
        rw [htl, hmem]
        omega
      have main : ∀ (mem1 : List Nat), mem1 = overlay mem e.p (b.take nip1) →
          ((ee24WriteLoop (pvtT e.conf.PageSize) origsize fuel mem1
              { e with p := e.p + nip1 } (b.drop nip1)).err = none ∧
            (ee24WriteLoop (pvtT e.conf.PageSize) origsize fuel mem1
              { e with p := e.p + nip1 } (b.drop nip1)).n = origsize ∧
            (ee24WriteLoop (pvtT e.conf.PageSize) origsize fuel mem1
              { e with p := e.p + nip1 } (b.drop nip1)).ee.p = e.p + b.length ∧
            (ee24WriteLoop (pvtT e.conf.PageSize) origsize fuel mem1
              { e with p := e.p + nip1 } (b.drop nip1)).ee.conf = e.conf ∧
            (ee24WriteLoop (pvtT e.conf.PageSize) origsize fuel mem1
              { e with p := e.p + nip1 } (b.drop nip1)).ee.devaddr =
              e.devaddr ∧
            (ee24WriteLoop (pvtT e.conf.PageSize) origsize fuel mem1
              { e with p := e.p + nip1 } (b.drop nip1)).s =
              overlay mem e.p b) := by
        intro mem1 hmem1
        obtain ⟨g1, g2, g3, g4, g5, g6⟩ := ih origsize mem1
          { e with p := e.p + nip1 } (b.drop nip1) (by exact hk)
          (by exact hdvd) (by exact h19) (by exact hda)
          (by rw [hmem1, overlay_length, hmem])
          (by simp [List.length_drop]; omega)
          (by simp [List.length_drop]; omega)
          (by simp [List.length_drop]; omega)
        refine ⟨g1, g2, ?_, g4, g5, ?_⟩
        · rw [g3]
          simp [List.length_drop]
          omega
        · rw [g6, hmem1]
          conv_rhs => rw [← List.take_append_drop nip1 b]
          rw [overlay_append, htl]
      cases hsm : e.conf.hasSmallAddresses with
      | true =>
        rw [if_pos rfl]
        have hsmall : e.conf.Size ≤ 2 ^ 11 := (hasSmallAddresses_iff _).mp hsm
        have hp11 : e.p < 2 ^ 11 := by omega
        have hmem8 : (((Addr.addr7 (u8 (u16 (e.devaddr.GetBaseAddr +
            u16 (e.p >>> 8))))).GetBaseAddr &&& 0x07) <<< 8) +
            u8 (e.p &&& 0xff) = e.p := by
          rw [hda]
          exact pvt_memaddr_small hal hp11
        simp only [pvtT]
        rw [pvtT8_write_eq hk (by omega) mem _ _ _ e.p hmem8 hchunk hrange hm64]
        simp only []
        exact main _ rfl
      | false =>
        rw [if_neg Bool.false_ne_true]
        have hp19 : e.p < 2 ^ 19 := by omega
        have hmem16 : (((Addr.addr7 (u8 (u16 (e.devaddr.GetBaseAddr +
            u16 (e.p >>> 16))))).GetBaseAddr &&& 0x07) <<< 16) +
            u16 e.p = e.p := by
          rw [hda]
          exact pvt_memaddr_large hal hp19
        simp only [pvtT]
        rw [pvtT16_write_eq hk (by omega) mem _ _ _ e.p hmem16 hchunk hrange hm64]
        simp only []
        exact main _ rfl
    · rw [if_neg hcond]
      have hb0 : b.length = 0 := by
        rcases Nat.eq_zero_or_pos b.length with h | h
        · exact h
        · exfalso
          have hpS : ¬ e.p < e.conf.Size := fun hlt => hcond ⟨h, hlt⟩
          omega
      have hbe : b = [] := List.length_eq_zero.mp hb0
      subst hbe
      rw [if_neg (by simp : ¬ (e.p = e.conf.Size ∧ 0 < ([] : List Nat).length))]
      rw [if_neg (by simp at hfit; omega : ¬ e.p > e.conf.Size)]
      exact ⟨rfl, rfl, by show e.p = e.p + 0; omega, rfl, rfl, rfl⟩


/-- A non-empty in-bounds `Read` against the PVT24 device model, for a
bank-aligned base address: it returns exactly the device memory at
positions `p ..`. -/
theorem ee24Read_pvt (pg a : Nat) (hal : (a &&& 0x7f) % 8 = 0)
    (mem : List Nat) (e : Ee24) (n : Nat)
    (h19 : e.conf.Size ≤ 2 ^ 19) (hda : e.devaddr = .addr7 a)
    (hmem : mem.length = e.conf.Size) (hn : 0 < n)
    (hfit : e.p + n ≤ e.conf.Size) :
    (ee24Read (pvtT pg) mem e n).rb =
      (List.range n).map (fun i => mem.getD (e.p + i) 0) ∧
    (ee24Read (pvtT pg) mem e n).n = n := by
  rw [ee24Read]
  rw [if_neg (by omega : ¬ e.p + n > e.conf.Size)]
  rw [if_neg (by omega : ¬ e.p + n - e.p = 0)]
  rw [show e.p + n - e.p = n from by omega]
  cases hsm : e.conf.hasSmallAddresses with
  | true =>
    rw [if_pos rfl]
    have hsmall : e.conf.Size ≤ 2 ^ 11 := (hasSmallAddresses_iff _).mp hsm
    have hp11 : e.p < 2 ^ 11 := by omega
    have hmem8 : (((Addr.addr7 (u8 (u16 (e.devaddr.GetBaseAddr +
        u16 (e.p >>> 8))))).GetBaseAddr &&& 0x07) <<< 8) +
        u8 (e.p &&& 0xff) = e.p := by
      rw [hda]
      exact pvt_memaddr_small hal hp11
    simp only [pvtT]
    rw [pvtT8_read_eq pg mem _ _ n e.p hmem8 (by omega)]
    exact ⟨rfl, rfl⟩
  | false =>
    rw [if_neg Bool.false_ne_true]
    have hp19 : e.p < 2 ^ 19 := by omega
    have hmem16 : (((Addr.addr7 (u8 (u16 (e.devaddr.GetBaseAddr +
        u16 (e.p >>> 16))))).GetBaseAddr &&& 0x07) <<< 16) +
        u16 e.p = e.p := by
      rw [hda]
      exact pvt_memaddr_large hal hp19
    simp only [pvtT]
    rw [pvtT16_read_eq pg mem _ _ n e.p hmem16 (by omega)]
    exact ⟨rfl, rfl⟩

/-- **C5, counterexample to the claim as stated.**  The driver at base
address `0x51` with the valid configuration `⟨256, 8⟩` is accepted by
construction, yet against the repository's own page-respecting device
model (`PVT24`, whose banking decodes the low three device-address bits)
writing `[1]` at offset 0 and reading one byte back does not return
`[1]`: the unaligned base sends the transaction outside the device
memory (a Go index panic in the test harness, the `outOfRange` outcome
here). -/
theorem c5_counterexample :
    NewEEPROM24 (.addr7 0x51) ⟨256, 8, 0⟩ =
      .ok ⟨⟨256, 8, 0⟩, 0, .addr7 0x51⟩ ∧
    0 + [1].length ≤ 256 ∧ (List.replicate 256 0).length = 256 ∧
    (ee24Read (pvtT 8)
      (ee24Write (pvtT 8) (List.replicate 256 0)
        ⟨⟨256, 8, 0⟩, 0, .addr7 0x51⟩ [1]).s
      { (ee24Write (pvtT 8) (List.replicate 256 0)
          ⟨⟨256, 8, 0⟩, 0, .addr7 0x51⟩ [1]).ee with p := 0 } 1).rb ≠ [1] ∧
    (ee24Write (pvtT 8) (List.replicate 256 0)
      ⟨⟨256, 8, 0⟩, 0, .addr7 0x51⟩ [1]).err = some .outOfRange := by
  decide

/-- **C5, amended.**  For every successfully constructed driver whose
7-bit base address has its three low (bank) bits clear — the 0xA0-family
wiring the 24Cxx banking scheme presumes, and the base the tests use —
and for every buffer `B` and offset `O` with `O + len B ≤ size`, writing
`B` at offset `O` and then reading `len B` bytes from offset `O` against
the repository's page-respecting device model returns exactly `B`, in
both the small-addressing and the large-addressing configurations. -/
theorem c5_roundtrip_amended (a : Nat) (conf : EEPROM24Config) (e0 : Ee24)
    (mem B : List Nat) (O : Nat)
    (hcons : NewEEPROM24 (.addr7 a) conf = .ok e0)
    (hal : (a &&& 0x7f) % 8 = 0)
    (hmem : mem.length = conf.Size) (hB : O + B.length ≤ conf.Size) :
    (ee24Write (pvtT conf.PageSize) mem { e0 with p := O } B).err = none ∧
    (ee24Write (pvtT conf.PageSize) mem { e0 with p := O } B).n = B.length ∧
    (ee24Read (pvtT conf.PageSize)
      (ee24Write (pvtT conf.PageSize) mem { e0 with p := O } B).s
      { (ee24Write (pvtT conf.PageSize) mem { e0 with p := O } B).ee with
        p := O } B.length).rb = B ∧
    (ee24Read (pvtT conf.PageSize)
      (ee24Write (pvtT conf.PageSize) mem { e0 with p := O } B).s
      { (ee24Write (pvtT conf.PageSize) mem { e0 with p := O } B).ee with
        p := O } B.length).n = B.length := by
  obtain ⟨hle, hmax, hS, hP, h7, he0⟩ := NewEEPROM24_ok hcons
  subst he0
  obtain ⟨k, hk⟩ := ispow2_two_pow _ hP
  have hdvd := pagesize_dvd_size hS hP hle
  have h19 : conf.Size ≤ 2 ^ 19 := by
    have hM : MAX_EEPROM_SIZE = 2 ^ 19 := by decide
    omega
  have hW : ee24Write (pvtT conf.PageSize) mem
      { (⟨conf, 0, .addr7 a⟩ : Ee24) with p := O } B =
      ee24WriteLoop (pvtT conf.PageSize) B.length (B.length + 1) mem
        ⟨conf, O, .addr7 a⟩ B := rfl
  rw [hW]
  obtain ⟨w1, w2, w3, w4, w5, w6⟩ := ee24WriteLoop_pvt k a hal
    (B.length + 1) B.length mem ⟨conf, O, .addr7 a⟩ B hk hdvd h19 rfl hmem
    hB (by omega) (le_refl _)
  have hWe : ({ (ee24WriteLoop (pvtT conf.PageSize) B.length (B.length + 1)
      mem ⟨conf, O, .addr7 a⟩ B).ee with p := O } : Ee24) =
      ⟨conf, O, .addr7 a⟩ := by
    show (⟨(ee24WriteLoop (pvtT conf.PageSize) B.length (B.length + 1)
      mem ⟨conf, O, .addr7 a⟩ B).ee.conf, O,
      (ee24WriteLoop (pvtT conf.PageSize) B.length (B.length + 1)
      mem ⟨conf, O, .addr7 a⟩ B).ee.devaddr⟩ : Ee24) = ⟨conf, O, .addr7 a⟩
    rw [w4, w5]
  rw [hWe, w6]
  refine ⟨w1, w2, ?_⟩
  rcases Nat.eq_zero_or_pos B.length with hBl | hBl
  · have hBe : B = [] := List.length_eq_zero.mp hBl
    subst hBe
    have hO : O ≤ conf.Size := by omega
    have hz := ee24Read_zero (pvtT conf.PageSize) (overlay mem O [])
      (⟨conf, O, .addr7 a⟩ : Ee24) (by exact hO)
    simp only [List.length_nil]
    rw [hz]
    exact ⟨rfl, rfl⟩
  · obtain ⟨r1, r2⟩ := ee24Read_pvt conf.PageSize a hal (overlay mem O B)
      ⟨conf, O, .addr7 a⟩ B.length h19 rfl
      (by rw [overlay_length]; exact hmem) hBl hB
    refine ⟨?_, r2⟩
    rw [r1]
    have hstep : ∀ i ∈ List.range B.length,
        (overlay mem O B).getD ((⟨conf, O, .addr7 a⟩ : Ee24).p + i) 0 =
        B.getD i 0 := by
      intro i hi
      exact overlay_getD_in B mem O i (List.mem_range.mp hi) (by omega)
    rw [List.map_congr_left hstep]
    exact getD_range_map B

/-- Witness for `c5_roundtrip_amended`: configuration `⟨8, 2⟩` at base
`0x50`, writing `[9, 7]` at offset 5. -/
theorem c5_roundtrip_amended_witness :
    NewEEPROM24 (.addr7 0x50) ⟨8, 2, 0⟩ = .ok ⟨⟨8, 2, 0⟩, 0, .addr7 0x50⟩ ∧
    (0x50 &&& 0x7f) % 8 = 0 ∧ (List.replicate 8 3).length = 8 ∧
    5 + [9, 7].length ≤ 8 ∧
    ((ee24Write (pvtT 2) (List.replicate 8 3)
      { (⟨⟨8, 2, 0⟩, 0, .addr7 0x50⟩ : Ee24) with p := 5 } [9, 7]).err =
        none ∧
    (ee24Write (pvtT 2) (List.replicate 8 3)
      { (⟨⟨8, 2, 0⟩, 0, .addr7 0x50⟩ : Ee24) with p := 5 } [9, 7]).n =
        [9, 7].length ∧
    (ee24Read (pvtT 2)
      (ee24Write (pvtT 2) (List.replicate 8 3)
        { (⟨⟨8, 2, 0⟩, 0, .addr7 0x50⟩ : Ee24) with p := 5 } [9, 7]).s
      { (ee24Write (pvtT 2) (List.replicate 8 3)
          { (⟨⟨8, 2, 0⟩, 0, .addr7 0x50⟩ : Ee24) with p := 5 } [9, 7]).ee
        with p := 5 } [9, 7].length).rb = [9, 7] ∧
    (ee24Read (pvtT 2)
      (ee24Write (pvtT 2) (List.replicate 8 3)
        { (⟨⟨8, 2, 0⟩, 0, .addr7 0x50⟩ : Ee24) with p := 5 } [9, 7]).s
      { (ee24Write (pvtT 2) (List.replicate 8 3)
          { (⟨⟨8, 2, 0⟩, 0, .addr7 0x50⟩ : Ee24) with p := 5 } [9, 7]).ee
        with p := 5 } [9, 7].length).n = [9, 7].length) :=
  ⟨by decide, by decide, by decide, by decide,
    c5_roundtrip_amended 0x50 ⟨8, 2, 0⟩ ⟨⟨8, 2, 0⟩, 0, .addr7 0x50⟩
      (List.replicate 8 3) [9, 7] 5 (by decide) (by decide) (by decide)
      (by decide)⟩

end I2cm
